import Mathlib

/-!
Verification of the core logic of the kubernetes-version-update-action
repository (TypeScript) against its natural-language specification.

Strings of the TypeScript source are modelled as `List Char` (JavaScript
strings are sequences of UTF-16 code units; where a length or slicing
operation of the source is code-unit sensitive we account for surrogate
pairs explicitly, see `utf16Len`).  Each definition below is a shallow
embedding of one function of `src/utils.ts` or `src/file-updater.ts`;
the file/line of the embedded code is given in the doc comment.
-/

namespace KVUA

/-- JavaScript regex class `\d`: the ASCII digits. -/
def jsDigit (c : Char) : Bool :=
  '0' ≤ c && c ≤ '9'

/-- JavaScript LineTerminator characters (not matched by `.` in a regex,
and line boundaries for the `m` flag): LF, CR, LS, PS. -/
def jsLineTerm (c : Char) : Bool :=
  c = '\n' || c = '\r' || c = '\u2028' || c = '\u2029'

/-- Characters matched by `.` in a JavaScript regex without the `s` flag:
everything except a LineTerminator. -/
def jsDotOk (c : Char) : Bool :=
  !jsLineTerm c

/-- JavaScript regex class `\s`: WhiteSpace plus LineTerminator.  We list
the characters that actually occur in configuration text (space, tab,
vertical tab, form feed, CR, LF, NBSP, BOM); the remaining exotic
Unicode space characters are omitted from the model. -/
def jsSpace (c : Char) : Bool :=
  c = ' ' || c = '\t' || c = '\u000b' || c = '\u000c' || c = '\r' ||
    c = '\n' || c = '\u00A0' || c = '\uFEFF'

/-- Lower-case an ASCII letter; other characters unchanged.  Models the
case-insensitive (`i` flag) matching of the source's regexes, whose
patterns are ASCII. -/
def asciiLower (c : Char) : Char :=
  if 'A' ≤ c && c ≤ 'Z' then Char.ofNat (c.toNat + 32) else c

/-- JavaScript `str.split(sep)` for a single-character separator:
`"".split(".") = [""]`, separators delimit possibly-empty fields. -/
def splitOn (sep : Char) : List Char → List (List Char)
  | [] => [[]]
  | c :: t =>
    if c = sep then [] :: splitOn sep t
    else
      match splitOn sep t with
      | [] => [[c]]
      | g :: gs => (c :: g) :: gs

/-- Number of UTF-16 code units a code point occupies in a JavaScript
string: astral code points are a surrogate pair. -/
def utf16Len (c : Char) : Nat :=
  if c.toNat < 0x10000 then 1 else 2

/-- JavaScript `str.length`: the number of UTF-16 code units. -/
def jsLength (s : List Char) : Nat :=
  (s.map utf16Len).sum

/-- JavaScript `str.substring(0, k)` measured in UTF-16 code units.
When the cut would fall inside a surrogate pair, JavaScript keeps the
lone high surrogate (one code unit); a lone surrogate is not a code
point, so the model stands in U+FFFD (also one code unit) for it. -/
def jsTakeUnits (k : Nat) : List Char → List Char
  | [] => []
  | c :: rest =>
    if k = 0 then []
    else if utf16Len c ≤ k then c :: jsTakeUnits (k - utf16Len c) rest
    else ['�']

/-- The match test of `/(\d+\.\d+.*)$/` anchored at the start of the
given suffix: a maximal nonempty digit run, a literal dot, a digit, and
a remainder free of line terminators (`.*` cannot cross one and `$`
without the `m` flag only matches at the very end). -/
def tailMatch (s : List Char) : Bool :=
  let run := s.takeWhile jsDigit
  let rest := s.dropWhile jsDigit
  decide (run ≠ []) &&
    match rest with
    | '.' :: c :: r => jsDigit c && (c :: r).all jsDotOk
    | _ => false

/-- Leftmost match of `/(\d+\.\d+.*)$/` in a string: the first suffix at
which `tailMatch` succeeds (the capture group is the whole match, which
necessarily extends to the end of the string). -/
def firstMatchSuffix : List Char → Option (List Char)
  | [] => none
  | c :: t => if tailMatch (c :: t) then some (c :: t) else firstMatchSuffix t

/-- Embedding of `normalizeVersion` (src/utils.ts lines 15-19): empty
input stays empty; otherwise return the text from the first
`digits.digits` occurrence onward, else strip a single leading `v`. -/
def normalizeVersion (v : List Char) : List Char :=
  if v = [] then []
  else
    match firstMatchSuffix v with
    | some m => m
    | none =>
      match v with
      | 'v' :: t => t
      | _ => v

/-- The prerelease markers of `isPrerelease` (src/utils.ts line 23). -/
def preMarkers : List (List Char) :=
  ["alpha".toList, "beta".toList, "rc".toList, "next".toList,
    "canary".toList, "pre".toList]

/-- Case-insensitive prefix test: does `s` start with the (lower-case)
pattern `pat`, comparing ASCII letters case-insensitively? -/
def startsWithCI (pat s : List Char) : Bool :=
  (s.take pat.length).map asciiLower = pat

/-- Substring search for `/[-](alpha|beta|rc|next|canary|pre)/i`: is
there a hyphen immediately followed (case-insensitively) by one of the
markers? -/
def hyphenMarker : List Char → Bool
  | [] => false
  | c :: rest =>
    (c = '-' && preMarkers.any fun m => startsWithCI m rest) || hyphenMarker rest

/-- Embedding of `isPrerelease` (src/utils.ts lines 21-24): normalize,
then test the regex `/[-](alpha|beta|rc|next|canary|pre)/i` — a plain
substring search, with no requirement that the marker be a whole
dot-delimited segment. -/
def isPrerelease (v : List Char) : Bool :=
  hyphenMarker (normalizeVersion v)

/-- JavaScript string whitespace (trimmed by `Number(...)` conversion):
WhiteSpace or LineTerminator. -/
def jsStrWs (c : Char) : Bool :=
  jsSpace c || jsLineTerm c

/-- Drop leading and trailing JavaScript whitespace. -/
def trimWs (s : List Char) : List Char :=
  ((s.dropWhile jsStrWs).reverse.dropWhile jsStrWs).reverse

/-- Hexadecimal digit test. -/
def hexDigit (c : Char) : Bool :=
  jsDigit c || ('a' ≤ c && c ≤ 'f') || ('A' ≤ c && c ≤ 'F')

def octDigit (c : Char) : Bool :=
  '0' ≤ c && c ≤ '7'

def binDigit (c : Char) : Bool :=
  c = '0' || c = '1'

/-- Value of a single hexadecimal digit. -/
def hexDigitVal (c : Char) : Nat :=
  if jsDigit c then c.toNat - 48
  else if 'a' ≤ c && c ≤ 'f' then c.toNat - 87
  else c.toNat - 55

/-- Value of a digit string in the given base. -/
def digitsVal (base : Nat) (s : List Char) : Nat :=
  s.foldl (fun a c => a * base + hexDigitVal c) 0

/-- An unnormalized rational: integer numerator over a positive natural
denominator.  Decimal-literal parsing only ever produces power-of-ten
denominators, so no gcd normalization is needed; comparisons are done
by cross-multiplication, which the kernel can evaluate. -/
structure Frac where
  num : Int
  den : Nat
  dpos : 0 < den

/-- A natural number as a `Frac`. -/
def natFrac (n : Nat) : Frac :=
  ⟨n, 1, Nat.one_pos⟩

/-- Comparison of fractions by cross-multiplication (denominators are
positive). -/
def fracLt (a b : Frac) : Bool :=
  decide (a.num * b.den < b.num * a.den)

/-- The rational value of a `Frac` (used only in proofs). -/
def Frac.toRat (f : Frac) : ℚ :=
  (f.num : ℚ) / (f.den : ℚ)

/-- Result of JavaScript `Number(string)`.  The finite value is modelled
as an exact rational rather than an IEEE-754 double; rounding to double
is monotone, so it can only merge values that are distinct as
rationals, and every order-theoretic argument below is insensitive to
that. -/
inductive JsNum where
  | nan : JsNum
  | posInf : JsNum
  | negInf : JsNum
  | num : Frac → JsNum

/-- Is this value NaN (JavaScript `isNaN`)? -/
def JsNum.isNaN : JsNum → Bool
  | JsNum.nan => true
  | _ => false

/-- The fraction `(ip.fp) * 10^e` built from the integer part, fraction
part and exponent of a decimal literal. -/
def fracOfParts (ip fp : List Char) (e : Int) : Frac :=
  let m : Nat := digitsVal 10 ip * 10 ^ fp.length + digitsVal 10 fp
  if 0 ≤ e then
    ⟨(m * 10 ^ e.toNat : Nat), 10 ^ fp.length,
      Nat.pos_pow_of_pos _ (by norm_num)⟩
  else
    ⟨(m : Nat), 10 ^ fp.length * 10 ^ (-e).toNat,
      Nat.mul_pos (Nat.pos_pow_of_pos _ (by norm_num))
        (Nat.pos_pow_of_pos _ (by norm_num))⟩

/-- Parse a nonempty decimal digit string with optional sign (the
exponent of a decimal literal). -/
def parseSignedDigits (s : List Char) : Option Int :=
  match s with
  | '+' :: d => if d ≠ [] && d.all jsDigit then some (digitsVal 10 d) else none
  | '-' :: d => if d ≠ [] && d.all jsDigit then some (-(digitsVal 10 d : Int)) else none
  | d => if d ≠ [] && d.all jsDigit then some (digitsVal 10 d) else none

/-- Parse the optional exponent part `[eE][+-]?digits` of a decimal
literal; empty input means exponent 0. -/
def parseExpPart : List Char → Option Int
  | [] => some 0
  | 'e' :: r => parseSignedDigits r
  | 'E' :: r => parseSignedDigits r
  | _ => none

/-- Parse an ES `StrUnsignedDecimalLiteral` other than `Infinity`:
`digits [. digits] [exp]` or `. digits [exp]`. -/
def parseUnsignedDec (t : List Char) : Option Frac :=
  let ip := t.takeWhile jsDigit
  let r1 := t.dropWhile jsDigit
  match r1 with
  | '.' :: r2 =>
    let fp := r2.takeWhile jsDigit
    let r3 := r2.dropWhile jsDigit
    if ip = [] && fp = [] then none
    else
      match parseExpPart r3 with
      | some e => some (fracOfParts ip fp e)
      | none => none
  | _ =>
    if ip = [] then none
    else
      match parseExpPart r1 with
      | some e => some (fracOfParts ip [] e)
      | none => none

/-- Parse an unsigned decimal literal or `Infinity` into a `JsNum`. -/
def unsignedToNum (t : List Char) : JsNum :=
  if t = "Infinity".toList then JsNum.posInf
  else
    match parseUnsignedDec t with
    | some q => JsNum.num q
    | none => JsNum.nan

/-- Negation of a `JsNum` (for a leading `-` sign). -/
def jsNeg : JsNum → JsNum
  | JsNum.nan => JsNum.nan
  | JsNum.posInf => JsNum.negInf
  | JsNum.negInf => JsNum.posInf
  | JsNum.num f => JsNum.num ⟨-f.num, f.den, f.dpos⟩

/-- Model of JavaScript `Number(string)` (ES `StringToNumber`): trim
whitespace, empty means 0, `0x`/`0o`/`0b` integer literals (unsigned),
otherwise an optionally-signed decimal literal or `Infinity`; anything
else is NaN. -/
def strToNumber (s : List Char) : JsNum :=
  let t := trimWs s
  if t = [] then JsNum.num (natFrac 0)
  else if t.take 2 = ['0', 'x'] || t.take 2 = ['0', 'X'] then
    (if t.drop 2 ≠ [] && (t.drop 2).all hexDigit then
      JsNum.num (natFrac (digitsVal 16 (t.drop 2))) else JsNum.nan)
  else if t.take 2 = ['0', 'o'] || t.take 2 = ['0', 'O'] then
    (if t.drop 2 ≠ [] && (t.drop 2).all octDigit then
      JsNum.num (natFrac (digitsVal 8 (t.drop 2))) else JsNum.nan)
  else if t.take 2 = ['0', 'b'] || t.take 2 = ['0', 'B'] then
    (if t.drop 2 ≠ [] && (t.drop 2).all binDigit then
      JsNum.num (natFrac (digitsVal 2 (t.drop 2))) else JsNum.nan)
  else if t.take 1 = ['+'] then unsignedToNum (t.drop 1)
  else if t.take 1 = ['-'] then jsNeg (unsignedToNum (t.drop 1))
  else unsignedToNum t

/-- JavaScript `<` on numbers: false whenever either side is NaN. -/
def jsLt : JsNum → JsNum → Bool
  | JsNum.nan, _ => false
  | _, JsNum.nan => false
  | JsNum.negInf, JsNum.negInf => false
  | JsNum.negInf, _ => true
  | _, JsNum.negInf => false
  | JsNum.posInf, _ => false
  | JsNum.num _, JsNum.posInf => true
  | JsNum.num a, JsNum.num b => fracLt a b

/-- JavaScript `>` on numbers. -/
def jsGt (a b : JsNum) : Bool :=
  jsLt b a

/-- One step of the core-component comparison loop of `compareVersions`
(src/utils.ts lines 41-46): `p1 > p2` gives 1, `p1 < p2` gives -1,
otherwise (including NaN on either side) keep looping. -/
def numCmp (a b : JsNum) : Int :=
  if jsGt a b then 1 else if jsLt a b then -1 else 0

/-- The JavaScript number 0 (the `?? 0` default for a missing
component). -/
def jsZero : JsNum :=
  JsNum.num (natFrac 0)

/-- Remaining core-component loop once the left side has run out of
components (`p1` is always `?? 0`). -/
def cmpCoreNil : List JsNum → Int
  | [] => 0
  | y :: ys => if numCmp jsZero y ≠ 0 then numCmp jsZero y else cmpCoreNil ys

/-- The core-component loop of `compareVersions`: missing trailing
components are `?? 0`; 0 means the loop finished without returning. -/
def cmpCore : List JsNum → List JsNum → Int
  | [], ys => cmpCoreNil ys
  | x :: xs, [] =>
    if numCmp x jsZero ≠ 0 then numCmp x jsZero else cmpCore xs []
  | x :: xs, y :: ys =>
    if numCmp x y ≠ 0 then numCmp x y else cmpCore xs ys

/-- JavaScript `<` on strings: lexicographic by code unit (modelled by
code point; the two differ only when astral and U+E000..U+FFFF code
points are compared, and both are total orders). -/
def lexLt : List Char → List Char → Bool
  | [], [] => false
  | [], _ :: _ => true
  | _ :: _, [] => false
  | a :: xs, b :: ys =>
    if a.toNat < b.toNat then true
    else if b.toNat < a.toNat then false
    else lexLt xs ys

/-- One step of the prerelease-segment loop of `compareVersions`
(src/utils.ts lines 60-75): numeric segments compare numerically, a
numeric segment is below a non-numeric one, non-numeric segments
compare as strings; 0 means move to the next segment. -/
def segCmp (p1 p2 : List Char) : Int :=
  let n1 := strToNumber p1
  let n2 := strToNumber p2
  let isN1 := !n1.isNaN && decide (p1 ≠ [])
  let isN2 := !n2.isNaN && decide (p2 ≠ [])
  if isN1 && isN2 then
    if jsGt n1 n2 then 1 else if jsLt n1 n2 then -1 else 0
  else if isN1 then -1
  else if isN2 then 1
  else if lexLt p2 p1 then 1 else if lexLt p1 p2 then -1 else 0

/-- The prerelease-segment loop of `compareVersions` (src/utils.ts
lines 54-76): a missing segment (`undefined`) loses, with the left side
checked first; 0 means both ran out simultaneously. -/
def cmpPre : List (List Char) → List (List Char) → Int
  | [], [] => 0
  | [], _ :: _ => -1
  | _ :: _, [] => 1
  | p :: ps, q :: qs => if segCmp p q ≠ 0 then segCmp p q else cmpPre ps qs

/-- Text before the first hyphen of a normalized version (`substring`
up to `indexOf('-')`; the whole string when there is no hyphen). -/
def verOf (s : List Char) : List Char :=
  s.takeWhile (fun c => c ≠ '-')

/-- Text after the first hyphen (empty when there is no hyphen — the
source then treats the version as having no prerelease, and a trailing
lone hyphen also yields the empty, hence falsy, prerelease part). -/
def preOf (s : List Char) : List Char :=
  (s.dropWhile (fun c => c ≠ '-')).drop 1

/-- Embedding of `compareVersions` (src/utils.ts lines 26-78). -/
def compareVersions (v1 v2 : List Char) : Int :=
  let n1 := normalizeVersion v1
  let n2 := normalizeVersion v2
  let pre1 := preOf n1
  let pre2 := preOf n2
  let parts1 := (splitOn '.' (verOf n1)).map strToNumber
  let parts2 := (splitOn '.' (verOf n2)).map strToNumber
  let c := cmpCore parts1 parts2
  if c ≠ 0 then c
  else if pre1 = [] && pre2 ≠ [] then 1
  else if pre1 ≠ [] && pre2 = [] then -1
  else if pre1 = [] && pre2 = [] then 0
  else cmpPre (splitOn '.' pre1) (splitOn '.' pre2)

/-- A release as consumed from the GitHub API (src/types.ts).  The
optional `name`/`body` fields are used only for AI prompt construction
and are omitted from the model. -/
structure Release where
  tag_name : List Char
  html_url : List Char
  published_at : List Char
deriving DecidableEq, Repr

/-- Has the accepted count reached `maxReleases`?  `none` models the
JavaScript `Infinity` sentinel passed by callers (never reached). -/
def maxReached (maxR : Option Nat) (len : Nat) : Bool :=
  match maxR with
  | none => false
  | some m => m ≤ len

/-- The loop of `getRelevantReleases`, carrying the number of releases
accepted so far (`relevant.length`). -/
def grrGo (cur : List Char) (maxR : Option Nat) : List Release → Nat → List Release
  | [], _ => []
  | r :: rest, n =>
    if normalizeVersion r.tag_name = cur then []
    else if maxReached maxR (n + 1) then [r]
    else r :: grrGo cur maxR rest (n + 1)

/-- Embedding of `getRelevantReleases` (src/utils.ts lines 80-94):
walk the newest-first list, stop (excluding) at the first tag whose
normalization equals the normalized current version, and stop
(including) after the push that reaches `maxReleases`. -/
def getRelevantReleases (releases : List Release) (currentVersion : List Char)
    (maxReleases : Option Nat) : List Release :=
  grrGo (normalizeVersion currentVersion) maxReleases releases 0

/-- One entry of `aiAssessment.releases` (the `RiskAssessment` shape of
src/types.ts). -/
structure RiskRelease where
  tag_name : List Char
  html_url : List Char
  published_at : List Char
  risk : List Char
  worryFree : Bool
  summary : List Char
  recommendations : Option (List Char)

/-- The `aiAssessment` argument of `generatePrBody` (the
`AggregateRisk` shape of src/types.ts). -/
structure AggregateRisk where
  overallRisk : List Char
  overallWorryFree : Bool
  releases : List RiskRelease

/-- Embedding of `formatRisk` (src/utils.ts lines 106-119). -/
def formatRisk (risk : List Char) : List Char :=
  if risk = "None".toList then "None ✅".toList
  else if risk = "Low".toList then "Low 🟢".toList
  else if risk = "Medium".toList then "Medium 🟡".toList
  else if risk = "High".toList then "High 🔴".toList
  else risk

/-- The `dateStr` computation of `generatePrBody`: an empty (falsy)
`published_at` displays as `unknown date`, otherwise the result of
`new Date(...).toLocaleDateString()`.  Locale-dependent date rendering
is external to the program, so it is a parameter `dateFn` of the
embedding; every theorem below holds for all `dateFn`. -/
def dateDisplay (dateFn : List Char → List Char) (published : List Char) : List Char :=
  if published = [] then "unknown date".toList else dateFn published

/-- One release line of the AI-assessment section of `generatePrBody`
(src/utils.ts lines 156-169), including the summary/recommendation
lines shown while `i < aiDescriptionsLimit`. -/
def aiReleaseEntry (dateFn : List Char → List Char) (limit i : Nat)
    (rel : RiskRelease) : List Char :=
  "- **[".toList ++ rel.tag_name ++ "](".toList ++ rel.html_url ++ ")** (".toList ++
    dateDisplay dateFn rel.published_at ++ ") (Risk: ".toList ++ formatRisk rel.risk ++
    ", Worry-free: ".toList ++ (if rel.worryFree then "Yes".toList else "No".toList) ++
    ")\n".toList ++
  (if i < limit then
    "  ".toList ++ rel.summary ++ "\n".toList ++
      (match rel.recommendations with
       | some rcm =>
         if rel.risk ≠ "None".toList && rcm ≠ [] then
           "  > **💡 Recommendation:** ".toList ++ rcm ++ "\n".toList
         else []
       | none => [])
  else [])

/-- The AI-assessment section of `generatePrBody` (src/utils.ts lines
151-169). -/
def aiSection (dateFn : List Char → List Char) (limit : Nat)
    (ai : AggregateRisk) : List Char :=
  "### 🤖 AI Risk Assessment\n".toList ++
  "- **Overall Risk Level**: ".toList ++ formatRisk ai.overallRisk ++ "\n".toList ++
  "- **Overall Worry Free**: ".toList ++
    (if ai.overallWorryFree then "Yes ✅".toList else "No ⚠️".toList) ++ "\n\n".toList ++
  "#### Detailed Release Summaries\n".toList ++
  (ai.releases.enum.map fun p => aiReleaseEntry dateFn limit p.1 p.2).flatten

/-- One release line of the plain section of `generatePrBody`
(src/utils.ts lines 172-177). -/
def plainEntry (dateFn : List Char → List Char) (rel : Release) : List Char :=
  "- **[".toList ++ rel.tag_name ++ "](".toList ++ rel.html_url ++ ")** (".toList ++
    dateDisplay dateFn rel.published_at ++ ")\n".toList

/-- The plain releases section of `generatePrBody` (src/utils.ts lines
171-177). -/
def plainSection (dateFn : List Char → List Char) (rels : List Release) : List Char :=
  "### 📦 Included Releases\n".toList ++ (rels.map (plainEntry dateFn)).flatten

/-- The execution-log block of `generatePrBody` (src/utils.ts line
181). -/
def logsBlock (logBuffer : List Char) : List Char :=
  "\n---\n<details>\n<summary>📄 Full Execution Logs</summary>\n\n```text\n".toList ++
    logBuffer ++ "\n```\n</details>\n".toList

/-- One construction of `prBody` inside the loop of `generatePrBody`,
for the current `includeLogs` flag and `aiDescriptionsLimit`. -/
def buildPrBody (dateFn : List Char → List Char) (displayName : List Char)
    (ai : Option AggregateRisk) (rels : List Release) (logBuffer : List Char)
    (includeLogs : Bool) (limit : Nat) : List Char :=
  "Automated version update for **".toList ++ displayName ++ "**.\n\n".toList ++
  (match ai with
   | some a => aiSection dateFn limit a
   | none => plainSection dateFn rels) ++
  (if includeLogs then logsBlock logBuffer else [])

/-- The last-resort truncation of `generatePrBody` (src/utils.ts line
195): `substring(0, maxBodySize - 50)` (natural subtraction models the
clamping of a negative JavaScript end index to 0) plus the fixed
21-code-unit marker. -/
def truncateBody (maxBodySize : Nat) (body : List Char) : List Char :=
  jsTakeUnits (maxBodySize - 50) body ++ "\n\n...(body truncated)".toList

/-- The degradation loop of `generatePrBody` after the log block has
been dropped: rebuild with the current `aiDescriptionsLimit`, decrement
while positive, truncate at zero. -/
def genLoopNoLogs (dateFn : List Char → List Char) (displayName : List Char)
    (ai : Option AggregateRisk) (rels : List Release) (logBuffer : List Char)
    (maxBodySize : Nat) : Nat → List Char
  | 0 =>
    let b := buildPrBody dateFn displayName ai rels logBuffer false 0
    if jsLength b ≤ maxBodySize then b else truncateBody maxBodySize b
  | d + 1 =>
    let b := buildPrBody dateFn displayName ai rels logBuffer false (d + 1)
    if jsLength b ≤ maxBodySize then b
    else genLoopNoLogs dateFn displayName ai rels logBuffer maxBodySize d

/-- Embedding of `generatePrBody` (src/utils.ts lines 121-201).  The
`while (true)` loop first tries the full body, then drops the log
block, then lowers `aiDescriptionsLimit` one release at a time, and
finally hard-truncates. -/
def generatePrBody (dateFn : List Char → List Char) (displayName : List Char)
    (ai : Option AggregateRisk) (rels : List Release) (logBuffer : List Char)
    (maxBodySize : Nat) : List Char :=
  let d0 := match ai with
    | some a => a.releases.length
    | none => 0
  let b := buildPrBody dateFn displayName ai rels logBuffer true d0
  if jsLength b ≤ maxBodySize then b
  else genLoopNoLogs dateFn displayName ai rels logBuffer maxBodySize d0

/-- Match a literal pattern at the head of a string, returning the
remainder. -/
def dropLit (pat s : List Char) : Option (List Char) :=
  if s.take pat.length = pat then some (s.drop pat.length) else none

/-- Match `^\s*(?:-\s*)?KEY:` against one line, returning the consumed
text (capture-group-1 material up to and including the colon) and the
remainder.  The source splices the key into the pattern unescaped; the
model assumes the key is a literal that neither starts with whitespace
nor with a dash (true of the YAML keys this action targets), so the
greedy `\s*` runs are deterministic. -/
def afterKey (key line : List Char) : Option (List Char × List Char) :=
  let w0 := line.takeWhile jsSpace
  let r0 := line.dropWhile jsSpace
  let noDash : Option (List Char × List Char) :=
    (dropLit (key ++ [':']) r0).map fun rest => (w0 ++ (key ++ [':']), rest)
  match r0 with
  | '-' :: r1 =>
    let w1 := r1.takeWhile jsSpace
    let r2 := r1.dropWhile jsSpace
    (match dropLit (key ++ [':']) r2 with
     | some rest => some (w0 ++ '-' :: (w1 ++ (key ++ [':'])), rest)
     | none => noDash)
  | _ => noDash

/-- Match `\s*OLD` with a greedy, backtracking `\s*`: prefer consuming
another whitespace character, fall back to matching `OLD` here.
Returns the consumed whitespace and the text after `OLD`. -/
def matchValGreedy (oldVal : List Char) : List Char → Option (List Char × List Char)
  | [] => (dropLit oldVal []).map fun rest => (([] : List Char), rest)
  | c :: t =>
    if jsSpace c then
      match matchValGreedy oldVal t with
      | some (p, r) => some (c :: p, r)
      | none => (dropLit oldVal (c :: t)).map fun rest => (([] : List Char), rest)
    else (dropLit oldVal (c :: t)).map fun rest => (([] : List Char), rest)

/-- Match `\s*([^#\n]+)` with greedy, backtracking `\s*`: the value
group is the maximal nonempty run up to the first `#` (or line end).
Returns the consumed whitespace, the value, and the remainder (from
the first `#` on). -/
def matchAnyValGreedy : List Char → Option (List Char × List Char × List Char)
  | [] => none
  | c :: t =>
    if jsSpace c then
      match matchAnyValGreedy t with
      | some (ws, v, tail) => some (c :: ws, v, tail)
      | none =>
        let v := (c :: t).takeWhile fun x => x ≠ '#'
        if v = [] then none else some ([], v, (c :: t).dropWhile fun x => x ≠ '#')
    else
      let v := (c :: t).takeWhile fun x => x ≠ '#'
      if v = [] then none else some ([], v, (c :: t).dropWhile fun x => x ≠ '#')

/-- Match of `^(\s*(?:-\s*)?KEY:\s*)(OLD)(.*)$` against one line
(the exact-old-value pattern of `setYamlValue`): returns the group-1
text and the group-3 remainder. -/
def lineMatchExact (key oldVal line : List Char) : Option (List Char × List Char) :=
  match afterKey key line with
  | none => none
  | some (pre, rest) =>
    match matchValGreedy oldVal rest with
    | none => none
    | some (ws, tail) => some (pre ++ ws, tail)

/-- Match of `^(\s*(?:-\s*)?KEY:\s*)([^#\n]+)(.*)$` against one line
(the fallback any-value pattern of `setYamlValue`): returns the group-1
text and the group-3 remainder. -/
def lineMatchFallback (key line : List Char) : Option (List Char × List Char) :=
  match afterKey key line with
  | none => none
  | some (pre, rest) =>
    match matchAnyValGreedy rest with
    | none => none
    | some (ws, _v, tail) => some (pre ++ ws, tail)

/-- Rewrite the first line matched by `m` using `rebuild` on the match
groups; `none` when no line matches.  This is `content.replace(regex,
...)` for a line-anchored (`m` flag) pattern: only the first matching
line changes. -/
def rewriteFirstLine (m : List Char → Option (List Char × List Char))
    (rebuild : List Char → List Char → List Char) :
    List (List Char) → Option (List (List Char))
  | [] => none
  | l :: ls =>
    match m l with
    | some (pre, tail) => some (rebuild pre tail :: ls)
    | none => (rewriteFirstLine m rebuild ls).map fun ls2 => l :: ls2

/-- The composite-value rule of `setYamlValue` (src/file-updater.ts
lines 45-50): for the kubernetes type, a truthy old value containing a
colon keeps `oldValue.split(':')[0]` — the text before the FIRST colon
— and the new value replaces everything after it. -/
def compositeReplace (oldValue : Option (List Char)) (newValue : List Char)
    (isK8s : Bool) : List Char :=
  match oldValue with
  | some ov =>
    if isK8s && ov ≠ [] && ov.contains ':' then
      (ov.takeWhile fun c => c ≠ ':') ++ ':' :: newValue
    else newValue
  | none => newValue

/-- Embedding of the mutation core of `setYamlValue` (lines 43-72 of
the complete file-updater module, src/unnamed/part_002; dry-run off).
`oldValue` is the value previously read by `getYamlValue`, which goes
through the external js-yaml library and is therefore an input here.
`none` models the thrown `Could not find key` error.  The replacement
template is `$1${replaceVal}$3`; in this variant of the source the old
value is wrapped in a capture group, so `$3` is the text after the
value and the result line is `group1 ++ replaceVal ++ group3`.  (The
model assumes `replaceVal` itself contains no `$` substitution
patterns, true of version strings.) -/
def setYamlValueCore (content targetKey : List Char) (oldValue : Option (List Char))
    (newValue : List Char) (isK8s : Bool) : Option (List Char) :=
  let searchVal := oldValue.getD []
  let replaceVal := compositeReplace oldValue newValue isK8s
  let lines := splitOn '\n' content
  match rewriteFirstLine (lineMatchExact targetKey searchVal)
      (fun pre tail => pre ++ replaceVal ++ tail) lines with
  | some ls => some (List.intercalate ['\n'] ls)
  | none =>
    match rewriteFirstLine (lineMatchFallback targetKey)
        (fun pre tail => pre ++ replaceVal ++ tail) lines with
    | some ls => some (List.intercalate ['\n'] ls)
    | none => none

/-- The same mutation core as transcribed in src/src/file-updater.ts,
where the exact-value regex does NOT wrap the old value in a capture
group: the pattern has only two groups, so `$3` in the replacement is
(in V8) the literal text `$3`, and the group-2 tail `(.*)` — any
trailing comment — is consumed and dropped. -/
def setYamlValueCoreNoGroup (content targetKey : List Char)
    (oldValue : Option (List Char)) (newValue : List Char) (isK8s : Bool) :
    Option (List Char) :=
  let searchVal := oldValue.getD []
  let replaceVal := compositeReplace oldValue newValue isK8s
  let lines := splitOn '\n' content
  match rewriteFirstLine (lineMatchExact targetKey searchVal)
      (fun pre _tail => pre ++ replaceVal ++ '$' :: ['3']) lines with
  | some ls => some (List.intercalate ['\n'] ls)
  | none =>
    match rewriteFirstLine (lineMatchFallback targetKey)
        (fun pre tail => pre ++ replaceVal ++ tail) lines with
    | some ls => some (List.intercalate ['\n'] ls)
    | none => none

/-- Match `['"]?\s*$`: an optional quote then trailing whitespace. -/
def endQuoteWs (s : List Char) : Bool :=
  s.all jsSpace ||
    (match s with
     | c :: t => (c = '\'' || c = '"') && t.all jsSpace
     | [] => true)

/-- Match `['"]?REPO['"]?\s*$` at the given position (REPO is escaped
in the source, hence literal). -/
def repoValMatch (repo s : List Char) : Bool :=
  (match dropLit repo s with
   | some t => endQuoteWs t
   | none => false) ||
  (match s with
   | c :: t =>
     (c = '\'' || c = '"') &&
       (match dropLit repo t with
        | some t2 => endQuoteWs t2
        | none => false)
   | [] => false)

/-- Match a predicate after `\s*` (any number of whitespace
characters). -/
def wsStarThen (p : List Char → Bool) : List Char → Bool
  | [] => p []
  | c :: t => p (c :: t) || (jsSpace c && wsStarThen p t)

/-- Match a predicate after `\s+` (at least one whitespace
character). -/
def wsPlusThen (p : List Char → Bool) : List Char → Bool
  | [] => false
  | c :: t => jsSpace c && wsStarThen p t

/-- Match of `/^\s*repo:\s+['"]?REPO['"]?\s*$/` against one line (the
application locator of `removeApplicationFromConfig` and
`updateConfigVersion`). -/
def repoLineMatch (repo line : List Char) : Bool :=
  match dropLit "repo:".toList (line.dropWhile jsSpace) with
  | some r1 => wsPlusThen (repoValMatch repo) r1
  | none => false

/-- Index of the first line satisfying a predicate. -/
def findIdx (p : List Char → Bool) : List (List Char) → Option Nat
  | [] => none
  | l :: ls => if p l then some 0 else (findIdx p ls).map (· + 1)

/-- Match of `/^(\s*)-\s+/` against one line: the indentation of a
list-item start, when the line is one. -/
def listItemIndentOf (line : List Char) : Option (List Char) :=
  match line.dropWhile jsSpace with
  | '-' :: c :: _ => if jsSpace c then some (line.takeWhile jsSpace) else none
  | _ => none

/-- Scan upward from line `i` (inclusive) for the nearest list-item
start; returns its index and indentation. -/
def findItemStartUp (lines : List (List Char)) : Nat → Option (Nat × List Char)
  | 0 => (listItemIndentOf (lines.getD 0 [])).map fun w => (0, w)
  | i + 1 =>
    match listItemIndentOf (lines.getD (i + 1) []) with
    | some w => some (i + 1, w)
    | none => findItemStartUp lines i

/-- The block-boundary test of the downward scans: either
`^INDENT-\s+` (a sibling list item at the same indentation) or a
nonempty line indented strictly less than the block. -/
def blockBoundary (indent line : List Char) : Bool :=
  (match dropLit indent line with
   | some ('-' :: c :: _) => jsSpace c
   | _ => false) ||
  ((line.dropWhile jsSpace ≠ []) && (line.takeWhile jsSpace).length < indent.length)

/-- Index (starting at `i`) of the first remaining line that is a block
boundary. -/
def blockEndGo (indent : List Char) : List (List Char) → Nat → Option Nat
  | [], _ => none
  | l :: ls, i => if blockBoundary indent l then some i else blockEndGo indent ls (i + 1)

/-- Collapse every run of three or more newlines to exactly two
(the `/\n{3,}/g → '\n\n'` replacement), carrying the pending newline
count. -/
def collapseBlankGo : List Char → Nat → List Char
  | [], n => if n ≥ 3 then ['\n', '\n'] else List.replicate n '\n'
  | c :: t, n =>
    if c = '\n' then collapseBlankGo t (n + 1)
    else (if n ≥ 3 then ['\n', '\n'] else List.replicate n '\n') ++ c :: collapseBlankGo t 0

def collapseBlank (s : List Char) : List Char :=
  collapseBlankGo s 0

/-- Match of `/^\s*version:/` against one line. -/
def versionLineMatch (line : List Char) : Bool :=
  (dropLit "version:".toList (line.dropWhile jsSpace)).isSome

/-- Index of the first `version:` line in `[i, i + k)`. -/
def findVersionIdxGo (lines : List (List Char)) : Nat → Nat → Option Nat
  | _, 0 => none
  | i, k + 1 =>
    if versionLineMatch (lines.getD i []) then some i
    else findVersionIdxGo lines (i + 1) k

/-- The `^((\s*)version:\s*)(.*)$ → $1${newVersion}` rewrite of
`updateConfigVersion`: keep the indentation, key and following
whitespace, drop the old value (group 3) and append the new version. -/
def replaceVersionLine (line newVersion : List Char) : List Char :=
  match dropLit "version:".toList (line.dropWhile jsSpace) with
  | some rest =>
    line.takeWhile jsSpace ++ "version:".toList ++ rest.takeWhile jsSpace ++ newVersion
  | none => line

/-- Insert an element before position `n` (the `splice(n, 0, x)` of the
source). -/
def insertAt (n : Nat) (x : List Char) (ls : List (List Char)) : List (List Char) :=
  ls.take n ++ x :: ls.drop n

/-- Outcome of one mutating entry point run against a modelled
filesystem holding the single target file: whether the call returned
normally, the file content afterwards (`none` = file absent), and the
messages passed to `log`. -/
structure RunResult where
  ok : Bool
  disk : Option (List Char)
  logs : List (List Char)

/-- Rendering of a possibly-null old value inside a template literal
(JavaScript prints `null`). -/
def showOldVal : Option (List Char) → List Char
  | some v => v
  | none => "null".toList

/-- The log message of `setYamlValue` (src/file-updater.ts line 37). -/
def updateLogMsg (file path : List Char) (oldV : Option (List Char))
    (newV : List Char) : List Char :=
  "✍️  Update ".toList ++ file ++ " -> ".toList ++ path ++ ": ".toList ++
    showOldVal oldV ++ " -> ".toList ++ newV

/-- Embedding of the full `setYamlValue` entry point (src/unnamed/
part_002 lines 27-73) against a modelled filesystem.  `getVal` is the
result of `getYamlValue` on the file content: that helper goes through
the external js-yaml library, so it is a parameter of the embedding
(all theorems hold for every `getVal`).  A missing file makes
`fs.readFileSync` throw before anything else happens. -/
def setYamlValueFS (getVal : List Char → Option (List Char)) (file path : List Char)
    (disk : Option (List Char)) (newValue : List Char) (isK8s dryRun : Bool) :
    RunResult :=
  match disk with
  | none => ⟨false, none, []⟩
  | some content =>
    let oldValue := getVal content
    let msg := updateLogMsg file path oldValue newValue
    if dryRun then ⟨true, some content, [msg]⟩
    else
      let targetKey := (splitOn '.' path).getLastD []
      match setYamlValueCore content targetKey oldValue newValue isK8s with
      | some nc => ⟨true, some nc, [msg]⟩
      | none => ⟨false, some content, [msg]⟩

/-- The log message of `removeApplicationFromConfig` (line 80). -/
def removeLogMsg (configFile repo : List Char) : List Char :=
  "🗑️  Removing application with repo \"".toList ++ repo ++ "\" from ".toList ++ configFile

/-- The warning when the repo line is absent (line 107). -/
def removeWarnMsg (configFile repo : List Char) : List Char :=
  "⚠️  Could not find application with repo \"".toList ++ repo ++ "\" in ".toList ++ configFile

/-- The warning when no enclosing list item is found (lines 122-124). -/
def removeWarnBlockMsg (configFile repo : List Char) : List Char :=
  "⚠️  Could not find start of application block for repo \"".toList ++ repo ++
    "\" in ".toList ++ configFile

/-- Embedding of `removeApplicationFromConfig` (src/unnamed/part_002
lines 75-147): log, return immediately on dry run (before the
existence check), throw on a missing file, treat a missing repo line
or block start as a logged no-op, otherwise delete the block and
collapse blank-line runs. -/
def removeApplicationFromConfig (configFile repo : List Char)
    (disk : Option (List Char)) (dryRun : Bool) : RunResult :=
  let msg := removeLogMsg configFile repo
  if dryRun then ⟨true, disk, [msg]⟩
  else
    match disk with
    | none => ⟨false, none, [msg]⟩
    | some content =>
      let lines := splitOn '\n' content
      match findIdx (repoLineMatch repo) lines with
      | none => ⟨true, some content, [msg, removeWarnMsg configFile repo]⟩
      | some repoIdx =>
        match findItemStartUp lines repoIdx with
        | none => ⟨true, some content, [msg, removeWarnBlockMsg configFile repo]⟩
        | some (startIdx, indent) =>
          let endIdx :=
            match blockEndGo indent (lines.drop (startIdx + 1)) (startIdx + 1) with
            | some e => e
            | none => lines.length
          let newLines := lines.take startIdx ++ lines.drop endIdx
          ⟨true, some (collapseBlank (List.intercalate ['\n'] newLines)), [msg]⟩

/-- The log message of `updateConfigVersion` (lines 155-158). -/
def updateCfgLogMsg (configFile repo newVersion : List Char) : List Char :=
  "✍️  Updating version for repo \"".toList ++ repo ++ "\" in ".toList ++ configFile ++
    " to ".toList ++ newVersion

/-- Embedding of `updateConfigVersion` (src/unnamed/part_002 lines
149-236): log, return immediately on dry run, throw on a missing file
or missing repo line; when no enclosing list item exists the source
indexes `lines[-1]` and throws a TypeError, modelled as a non-ok
outcome; otherwise rewrite the block's `version:` line or insert one
below the repo line. -/
def updateConfigVersion (configFile repo newVersion : List Char)
    (disk : Option (List Char)) (dryRun : Bool) : RunResult :=
  let msg := updateCfgLogMsg configFile repo newVersion
  if dryRun then ⟨true, disk, [msg]⟩
  else
    match disk with
    | none => ⟨false, none, [msg]⟩
    | some content =>
      let lines := splitOn '\n' content
      match findIdx (repoLineMatch repo) lines with
      | none => ⟨false, some content, [msg]⟩
      | some repoIdx =>
        match findItemStartUp lines repoIdx with
        | none => ⟨false, some content, [msg]⟩
        | some (startIdx, indent) =>
          let searchEnd :=
            match blockEndGo indent (lines.drop (startIdx + 1)) (startIdx + 1) with
            | some e => e
            | none => lines.length
          match findVersionIdxGo lines startIdx (searchEnd - startIdx) with
          | some vIdx =>
            ⟨true,
              some (List.intercalate ['\n']
                (lines.set vIdx (replaceVersionLine (lines.getD vIdx []) newVersion))),
              [msg]⟩
          | none =>
            let repoIndent := (lines.getD repoIdx []).takeWhile jsSpace
            ⟨true,
              some (List.intercalate ['\n']
                (insertAt (repoIdx + 1)
                  (repoIndent ++ "version: ".toList ++ newVersion) lines)),
              [msg]⟩

example : normalizeVersion "v1.2.3".toList = "1.2.3".toList := by decide
example : normalizeVersion "myrepo/app:1.0.0".toList = "1.0.0".toList := by decide
example : normalizeVersion "vv".toList = "v".toList := by decide
example : normalizeVersion "latest".toList = "latest".toList := by decide
example : isPrerelease "v1.2.0-beta.1".toList = true := by decide
example : isPrerelease "v1.2.0-president".toList = true := by decide
example : isPrerelease "v1.2.0-anything".toList = false := by decide
example : isPrerelease "v1.2.0".toList = false := by decide

/-- A first-match rewrite returns `none` exactly when no line matches. -/
theorem rewriteFirstLine_eq_none (m : List Char → Option (List Char × List Char))
    (rb : List Char → List Char → List Char) (ls : List (List Char)) :
    rewriteFirstLine m rb ls = none ↔ ∀ l ∈ ls, m l = none := by
  induction ls with
  | nil => simp [rewriteFirstLine]
  | cons l ls ih =>
    cases h : m l with
    | some pr => simp [rewriteFirstLine, h]
    | none => simp [rewriteFirstLine, h, Option.map_eq_none', ih]

/-- On a single-line document whose line matches the exact-old-value
pattern, the mutation core rewrites that line in place. -/
theorem setYamlValueCore_oneline (content key : List Char)
    (oldV : Option (List Char)) (newV : List Char) (k8s : Bool)
    (pre tail : List Char) (hs : splitOn '\n' content = [content])
    (hm : lineMatchExact key (oldV.getD []) content = some (pre, tail)) :
    setYamlValueCore content key oldV newV k8s
      = some (pre ++ compositeReplace oldV newV k8s ++ tail) := by
  simp only [setYamlValueCore, hs, rewriteFirstLine, hm, List.intercalate,
    List.intersperse, List.flatten]
  simp

/-- The mutation core fails exactly when no line matches either
pattern. -/
theorem setYamlValueCore_eq_none_iff (content key : List Char)
    (oldV : Option (List Char)) (newV : List Char) (k8s : Bool) :
    setYamlValueCore content key oldV newV k8s = none ↔
      ∀ line ∈ splitOn '\n' content,
        lineMatchExact key (oldV.getD []) line = none ∧
        lineMatchFallback key line = none := by
  simp only [setYamlValueCore]
  cases hx : rewriteFirstLine (lineMatchExact key (oldV.getD []))
      (fun pre tail => pre ++ compositeReplace oldV newV k8s ++ tail)
      (splitOn '\n' content) with
  | some ls =>
    apply iff_of_false
    · simp
    · intro hall
      have := (rewriteFirstLine_eq_none (lineMatchExact key (oldV.getD []))
        (fun pre tail => pre ++ compositeReplace oldV newV k8s ++ tail)
        (splitOn '\n' content)).mpr (fun l hl => (hall l hl).1)
      rw [this] at hx
      exact Option.noConfusion hx
  | none =>
    cases hy : rewriteFirstLine (lineMatchFallback key)
        (fun pre tail => pre ++ compositeReplace oldV newV k8s ++ tail)
        (splitOn '\n' content) with
    | some ls =>
      apply iff_of_false
      · simp
      · intro hall
        have := (rewriteFirstLine_eq_none (lineMatchFallback key)
          (fun pre tail => pre ++ compositeReplace oldV newV k8s ++ tail)
          (splitOn '\n' content)).mpr (fun l hl => (hall l hl).2)
        rw [this] at hy
        exact Option.noConfusion hy
    | none =>
      apply iff_of_true rfl
      intro l hl
      exact ⟨(rewriteFirstLine_eq_none _ _ _).mp hx l hl,
        (rewriteFirstLine_eq_none _ _ _).mp hy l hl⟩

/-- C1: for the one-line document `image: busybox:1.35 # pinned`,
setting key `image` to `1.37.0` with the kubernetes (composite) type
and dry-run off rewrites the document to exactly
`image: busybox:1.37.0 # pinned`: the trailing comment and the
`busybox` prefix survive and no `$3`-style replacement artifact
appears.  Stated for every js-yaml oracle `getVal` that reads the
value `busybox:1.35` out of this document (which is what the library
returns for it). -/
theorem C1_composite_set_preserves_comment
    (getVal : List Char → Option (List Char)) (file : List Char)
    (h : getVal "image: busybox:1.35 # pinned".toList = some "busybox:1.35".toList) :
    setYamlValueFS getVal file "image".toList
      (some "image: busybox:1.35 # pinned".toList) "1.37.0".toList true false
    = ⟨true, some "image: busybox:1.37.0 # pinned".toList,
        [updateLogMsg file "image".toList (some "busybox:1.35".toList) "1.37.0".toList]⟩ := by
  have hkey : (splitOn '.' "image".toList).getLastD [] = "image".toList := by decide
  have hc : setYamlValueCore "image: busybox:1.35 # pinned".toList "image".toList
      (some "busybox:1.35".toList) "1.37.0".toList true
      = some "image: busybox:1.37.0 # pinned".toList := by decide
  simp only [setYamlValueFS, h, hkey, hc, Bool.false_eq_true, if_false]

/-- Witness for C1 at a concrete oracle. -/
theorem C1_composite_set_preserves_comment_witness :
    setYamlValueFS (fun _ => some "busybox:1.35".toList) "deploy.yaml".toList
      "image".toList (some "image: busybox:1.35 # pinned".toList) "1.37.0".toList
      true false
    = ⟨true, some "image: busybox:1.37.0 # pinned".toList,
        [updateLogMsg "deploy.yaml".toList "image".toList
          (some "busybox:1.35".toList) "1.37.0".toList]⟩ :=
  C1_composite_set_preserves_comment (fun _ => some "busybox:1.35".toList)
    "deploy.yaml".toList rfl

/-- The no-capture-group transcription of `setYamlValue` found in
src/src/file-updater.ts leaves a literal `$3` and drops the comment on
the same input; the repository's own tests (`does not append $3`,
`preserves trailing comments`) reject this behavior, which is why the
complete module's grouped pattern is taken as the program. -/
theorem setYamlValueCoreNoGroup_artifact :
    setYamlValueCoreNoGroup "image: busybox:1.35 # pinned".toList "image".toList
      (some "busybox:1.35".toList) "1.37.0".toList true
    = some "image: busybox:1.37.0$3".toList := by decide

/-- C2 counterexample: for the existing value
`registry:5000/app:1.0.0` (two colons) the kubernetes composite rule
produces `registry:2.0.0` — the text between the FIRST and last colon
is lost, not reattached, contradicting the claim that everything up to
the last colon is kept. -/
theorem C2_last_colon_counterexample :
    setYamlValueCore "image: registry:5000/app:1.0.0".toList "image".toList
      (some "registry:5000/app:1.0.0".toList) "2.0.0".toList true
    = some "image: registry:2.0.0".toList ∧
    "image: registry:2.0.0".toList ≠ "image: registry:5000/app:2.0.0".toList := by
  constructor
  · decide
  · decide

/-- C2 (amended): with the composite (kubernetes) type and a nonempty
existing value containing a colon, the replacement keeps only the text
before the FIRST colon and attaches the new value after it; the
document-level effect on a one-line document is shown for every new
value. -/
theorem C2_first_colon_replacement (ov nv : List Char) (h1 : ov ≠ [])
    (h2 : ov.contains ':' = true) :
    compositeReplace (some ov) nv true = (ov.takeWhile fun c => c ≠ ':') ++ ':' :: nv ∧
    setYamlValueCore "image: registry:5000/app:1.0.0".toList "image".toList
      (some "registry:5000/app:1.0.0".toList) nv true
    = some ("image: registry:".toList ++ nv) := by
  have hrep : ∀ nv2 : List Char,
      compositeReplace (some "registry:5000/app:1.0.0".toList) nv2 true
        = "registry".toList ++ ':' :: nv2 := by
    intro nv2
    simp only [compositeReplace]
    rw [if_pos (by decide)]
    have ht : ("registry:5000/app:1.0.0".toList.takeWhile fun c => c ≠ ':')
        = "registry".toList := by decide
    rw [ht]
  constructor
  · have h2m : ':' ∈ ov := by simpa using h2
    simp only [compositeReplace]
    rw [if_pos]
    simp [h1, h2m]
  · have hm : lineMatchExact "image".toList
        ((some "registry:5000/app:1.0.0".toList).getD [])
        "image: registry:5000/app:1.0.0".toList
        = some ("image: ".toList, []) := by decide
    have hs : splitOn '\n' "image: registry:5000/app:1.0.0".toList
        = ["image: registry:5000/app:1.0.0".toList] := by decide
    rw [setYamlValueCore_oneline _ _ _ _ _ _ _ hs hm, hrep nv]
    simp

/-- Witness for C2 (amended) at the two-colon value. -/
theorem C2_first_colon_replacement_witness :
    compositeReplace (some "registry:5000/app:1.0.0".toList) "2.0.0".toList true
      = ("registry:5000/app:1.0.0".toList.takeWhile fun c => c ≠ ':') ++
          ':' :: "2.0.0".toList ∧
    setYamlValueCore "image: registry:5000/app:1.0.0".toList "image".toList
      (some "registry:5000/app:1.0.0".toList) "2.0.0".toList true
    = some ("image: registry:".toList ++ "2.0.0".toList) :=
  C2_first_colon_replacement "registry:5000/app:1.0.0".toList "2.0.0".toList
    (by decide) (by decide)

/-- C3: with dry-run off, the mutation core reports the key-not-found
error exactly when no line of the document is matched by the
exact-old-value pattern or by the fallback any-value pattern; and
whenever that error is raised the on-disk document is left unchanged
(the write only happens on the success path). -/
theorem C3_key_not_found_iff_and_no_partial_write
    (getVal : List Char → Option (List Char))
    (file path content newValue : List Char) (isK8s : Bool) :
    (setYamlValueCore content ((splitOn '.' path).getLastD [])
        (getVal content) newValue isK8s = none
      ↔ ∀ line ∈ splitOn '\n' content,
          lineMatchExact ((splitOn '.' path).getLastD [])
            ((getVal content).getD []) line = none ∧
          lineMatchFallback ((splitOn '.' path).getLastD []) line = none) ∧
    (setYamlValueCore content ((splitOn '.' path).getLastD [])
        (getVal content) newValue isK8s = none →
      setYamlValueFS getVal file path (some content) newValue isK8s false
        = ⟨false, some content,
            [updateLogMsg file path (getVal content) newValue]⟩) := by
  constructor
  · exact setYamlValueCore_eq_none_iff content ((splitOn '.' path).getLastD [])
      (getVal content) newValue isK8s
  · intro hnone
    rw [List.getLastD_eq_getLast?] at hnone
    simp [setYamlValueFS, hnone]

/-- Witness for C3 at a document that lacks the key. -/
theorem C3_key_not_found_witness :
    setYamlValueCore "name: bob".toList
        ((splitOn '.' "image".toList).getLastD [])
        ((fun _ => none) "name: bob".toList) "2".toList true = none ∧
    setYamlValueFS (fun _ => none) "f.yaml".toList "image".toList
        (some "name: bob".toList) "2".toList true false
      = ⟨false, some "name: bob".toList,
          [updateLogMsg "f.yaml".toList "image".toList none "2".toList]⟩ :=
  ⟨by decide,
    (C3_key_not_found_iff_and_no_partial_write (fun _ => none) "f.yaml".toList
      "image".toList "name: bob".toList "2".toList true).2 (by decide)⟩

/-- C10: every mutation entry point called with dryRun = true leaves
the on-disk content byte-for-byte unchanged and produces only the
planned-change log message; `removeApplicationFromConfig` and
`updateConfigVersion` return without error even when the file does not
exist (their dry-run return precedes the existence check), and
`setYamlValue` does so whenever the file exists (its initial
`readFileSync` throws on a missing file before any write). -/
theorem C10_dry_run_writes_nothing (getVal : List Char → Option (List Char))
    (file path configFile repo newValue newVersion : List Char)
    (disk : Option (List Char)) (isK8s : Bool) :
    (setYamlValueFS getVal file path disk newValue isK8s true).disk = disk ∧
    (∀ c, disk = some c →
      setYamlValueFS getVal file path disk newValue isK8s true
        = ⟨true, some c, [updateLogMsg file path (getVal c) newValue]⟩) ∧
    removeApplicationFromConfig configFile repo disk true
      = ⟨true, disk, [removeLogMsg configFile repo]⟩ ∧
    updateConfigVersion configFile repo newVersion disk true
      = ⟨true, disk, [updateCfgLogMsg configFile repo newVersion]⟩ := by
  refine ⟨?_, ?_, ?_, ?_⟩
  · cases disk <;> simp [setYamlValueFS]
  · intro c hc
    subst hc
    simp [setYamlValueFS]
  · simp [removeApplicationFromConfig]
  · simp [updateConfigVersion]

/-- Witness for C10 at a concrete filesystem state. -/
theorem C10_dry_run_writes_nothing_witness :
    (setYamlValueFS (fun _ => some "1.0".toList) "f.yaml".toList "version".toList
        (some "version: 1.0".toList) "2.0".toList false true).disk
      = some "version: 1.0".toList ∧
    setYamlValueFS (fun _ => some "1.0".toList) "f.yaml".toList "version".toList
        (some "version: 1.0".toList) "2.0".toList false true
      = ⟨true, some "version: 1.0".toList,
          [updateLogMsg "f.yaml".toList "version".toList (some "1.0".toList)
            "2.0".toList]⟩ ∧
    removeApplicationFromConfig "c.yaml".toList "some-repo".toList none true
      = ⟨true, none, [removeLogMsg "c.yaml".toList "some-repo".toList]⟩ ∧
    updateConfigVersion "c.yaml".toList "some-repo".toList "1.1.0".toList none true
      = ⟨true, none,
          [updateCfgLogMsg "c.yaml".toList "some-repo".toList "1.1.0".toList]⟩ :=
  ⟨(C10_dry_run_writes_nothing (fun _ => some "1.0".toList) "f.yaml".toList
      "version".toList "c.yaml".toList "some-repo".toList "2.0".toList
      "1.1.0".toList (some "version: 1.0".toList) false).1,
    (C10_dry_run_writes_nothing (fun _ => some "1.0".toList) "f.yaml".toList
      "version".toList "c.yaml".toList "some-repo".toList "2.0".toList
      "1.1.0".toList (some "version: 1.0".toList) false).2.1 _ rfl,
    (C10_dry_run_writes_nothing (fun _ => some "1.0".toList) "f.yaml".toList
      "version".toList "c.yaml".toList "some-repo".toList "2.0".toList
      "1.1.0".toList none false).2.2.1,
    (C10_dry_run_writes_nothing (fun _ => some "1.0".toList) "f.yaml".toList
      "version".toList "c.yaml".toList "some-repo".toList "2.0".toList
      "1.1.0".toList none false).2.2.2⟩

theorem jsLength_cons (c : Char) (l : List Char) :
    jsLength (c :: l) = utf16Len c + jsLength l := by
  simp [jsLength]

theorem jsLength_append (a b : List Char) :
    jsLength (a ++ b) = jsLength a + jsLength b := by
  simp [jsLength]

/-- The code-unit length of a `substring(0, k)` slice is at most
`k`. -/
theorem jsLength_jsTakeUnits_le (s : List Char) : ∀ k, jsLength (jsTakeUnits k s) ≤ k := by
  induction s with
  | nil => intro k; simp [jsTakeUnits, jsLength]
  | cons c rest ih =>
    intro k
    by_cases h0 : k = 0
    · simp [jsTakeUnits, h0, jsLength]
    · by_cases hu : utf16Len c ≤ k
      · have := ih (k - utf16Len c)
        simp only [jsTakeUnits, h0, if_false, hu, if_true, jsLength_cons]
        omega
      · have h1 : utf16Len '�' = 1 := by decide
        simp only [jsTakeUnits, h0, if_false, hu, if_true, jsLength_cons]
        simp [jsLength, h1]
        omega

/-- The last-resort truncation respects `max maxBodySize 21`. -/
theorem jsLength_truncateBody_le (maxBodySize : Nat) (b : List Char) :
    jsLength (truncateBody maxBodySize b) ≤ max maxBodySize 21 := by
  have hm : jsLength "\n\n...(body truncated)".toList = 21 := by decide
  have ht := jsLength_jsTakeUnits_le b (maxBodySize - 50)
  simp only [truncateBody, jsLength_append, hm]
  omega

theorem genLoopNoLogs_le (dateFn : List Char → List Char) (displayName : List Char)
    (ai : Option AggregateRisk) (rels : List Release) (logBuffer : List Char)
    (maxBodySize : Nat) :
    ∀ d, jsLength (genLoopNoLogs dateFn displayName ai rels logBuffer maxBodySize d)
      ≤ max maxBodySize 21 := by
  intro d
  induction d with
  | zero =>
    simp only [genLoopNoLogs]
    split
    · omega
    · exact jsLength_truncateBody_le _ _
  | succ d ih =>
    simp only [genLoopNoLogs]
    split
    · omega
    · exact ih

set_option maxRecDepth 20000 in
/-- C9 counterexample: at `maxBodySize = 0` (with no AI assessment, no
releases and an empty log) the returned body is the 21-code-unit
truncation marker, so its length exceeds the limit — the claimed bound
fails for limits below 21. -/
theorem C9_small_limit_counterexample :
    jsLength (generatePrBody (fun s => s) "a".toList none [] [] 0) = 21 ∧
    ¬ jsLength (generatePrBody (fun s => s) "a".toList none [] [] 0) ≤ 0 := by
  constructor
  · decide
  · decide

/-- C9 (amended): for every display name, AI assessment, release list,
log string, locale date renderer and size limit, the body returned by
`generatePrBody` has code-unit length at most `max maxBodySize 21`:
the limit itself once it is at least 21, and never more than the
21-character truncation marker below that. -/
theorem C9_body_length_bounded (dateFn : List Char → List Char)
    (displayName : List Char) (ai : Option AggregateRisk) (rels : List Release)
    (logBuffer : List Char) (maxBodySize : Nat) :
    jsLength (generatePrBody dateFn displayName ai rels logBuffer maxBodySize)
      ≤ max maxBodySize 21 := by
  simp only [generatePrBody]
  split
  · omega
  · exact genLoopNoLogs_le dateFn displayName ai rels logBuffer maxBodySize _

/-- A `takeWhile` over a list all of whose elements satisfy the
predicate is the list itself. -/
theorem takeWhile_all_eq {α : Type} (p : α → Bool) (l : List α)
    (h : ∀ x ∈ l, p x = true) : l.takeWhile p = l := by
  induction l with
  | nil => rfl
  | cons a t ih =>
    have ha : p a = true := h a (by simp)
    simp [List.takeWhile_cons, ha, ih fun x hx => h x (by simp [hx])]

/-- Newest-first window selection as the spec words it (for the
refinement comparison of C4): the releases strictly before the one
matching the current version, limited to `maxCount`. -/
def selectRelevantSpec (rs : List Release) (cur : List Char) (m : Nat) : List Release :=
  (rs.takeWhile fun r =>
    decide (normalizeVersion r.tag_name ≠ normalizeVersion cur)).take m

/-- The loop of `getRelevantReleases` with `n` releases already
accepted computes the spec window truncated to the remaining budget
`m - n`. -/
theorem grrGo_take (cur : List Char) (m : Nat) (rs : List Release) :
    ∀ n, n < m → grrGo cur (some m) rs n
      = (rs.takeWhile fun r => decide (normalizeVersion r.tag_name ≠ cur)).take (m - n) := by
  induction rs with
  | nil => intro n _; simp [grrGo]
  | cons r rest ih =>
    intro n hn
    by_cases heq : normalizeVersion r.tag_name = cur
    · simp [grrGo, heq, List.takeWhile_cons]
    · by_cases hm2 : m ≤ n + 1
      · have hmn : m - n = 1 := by omega
        simp [grrGo, heq, maxReached, hm2, List.takeWhile_cons, hmn]
      · have h1 : n + 1 < m := by omega
        have hrec := ih (n + 1) h1
        rw [show m - n = (m - (n + 1)) + 1 from by omega]
        simp [grrGo, heq, maxReached, hm2, hrec, List.takeWhile_cons]

/-- C4 counterexample: with `maxCount = 0` the loop pushes the first
release before checking the bound, so it returns one release where the
claimed walk (stopping once 0 releases have been accepted) returns
none. -/
theorem C4_maxcount_zero_counterexample :
    getRelevantReleases [⟨"v9.9.9".toList, [], []⟩] "v1.0.0".toList (some 0)
      = [⟨"v9.9.9".toList, [], []⟩] ∧
    selectRelevantSpec [⟨"v9.9.9".toList, [], []⟩] "v1.0.0".toList 0 = [] := by
  constructor
  · decide
  · decide

/-- C4 (amended): for every `maxCount ≥ 1`, `getRelevantReleases` is
exactly the contiguous newest-first prefix stopping (exclusively) at
the first release whose normalized tag equals the normalized current
version, truncated to `maxCount` (order preserved); the bound is only
checked after a release is accepted, so `maxCount = 0` behaves like
`maxCount = 1`. -/
theorem C4_window_is_takeWhile_take (rs : List Release) (cur : List Char)
    (m : Nat) (hm : 1 ≤ m) :
    getRelevantReleases rs cur (some m) = selectRelevantSpec rs cur m := by
  unfold getRelevantReleases selectRelevantSpec
  rw [grrGo_take (normalizeVersion cur) m rs 0 (by omega)]
  simp

/-- Witness for C4 at the spec's own example. -/
theorem C4_window_is_takeWhile_take_witness :
    getRelevantReleases
        [⟨"v1.11.0".toList, [], []⟩, ⟨"v1.10.2".toList, [], []⟩,
          ⟨"v1.10.1".toList, [], []⟩, ⟨"v1.10.0".toList, [], []⟩]
        "v1.10.1".toList (some 10)
      = [⟨"v1.11.0".toList, [], []⟩, ⟨"v1.10.2".toList, [], []⟩] := by
  rw [C4_window_is_takeWhile_take _ _ 10 (by norm_num)]
  decide

/-- C5 counterexample: a release tag that itself normalizes to empty
DOES match-stop the walk when the current version normalizes to empty
(`tag === cur` compares two empty strings), contradicting the claim
that only the `maxCount` bound applies in that case. -/
theorem C5_empty_tag_matchstop_counterexample :
    normalizeVersion ([] : List Char) = [] ∧
    getRelevantReleases [⟨[], [], []⟩, ⟨"v2.0.0".toList, [], []⟩] [] (some 5) = [] ∧
    ([⟨([] : List Char), [], []⟩, ⟨"v2.0.0".toList, [], []⟩] : List Release).take 5
      ≠ [] := by
  refine ⟨by decide, by decide, by decide⟩

/-- C5 (amended): when the current version normalizes to empty, the
walk match-stops exactly on releases whose tags also normalize to
empty; if no tag in the list normalizes to empty, only the `maxCount`
bound limits the result (`maxCount ≥ 1`). -/
theorem C5_empty_current_no_matchstop (rs : List Release) (cur : List Char)
    (m : Nat) (hcur : normalizeVersion cur = [])
    (hall : ∀ r ∈ rs, normalizeVersion r.tag_name ≠ []) (hm : 1 ≤ m) :
    getRelevantReleases rs cur (some m) = rs.take m := by
  unfold getRelevantReleases
  rw [grrGo_take (normalizeVersion cur) m rs 0 (by omega), hcur]
  rw [takeWhile_all_eq _ rs fun r hr => by simp [hall r hr]]
  simp

/-- Witness for C5 at a concrete list with no empty-normalizing
tags. -/
theorem C5_empty_current_no_matchstop_witness :
    getRelevantReleases [⟨"v1.0.0".toList, [], []⟩] [] (some 1)
      = ([⟨"v1.0.0".toList, [], []⟩] : List Release).take 1 :=
  C5_empty_current_no_matchstop [⟨"v1.0.0".toList, [], []⟩] [] 1 (by decide)
    (by decide) (by norm_num)

theorem tailMatch_nonempty (m : List Char) (h : tailMatch m = true) : m ≠ [] := by
  intro he
  subst he
  simp [tailMatch] at h

theorem firstMatchSuffix_tailMatch (v m : List Char)
    (h : firstMatchSuffix v = some m) : tailMatch m = true := by
  induction v with
  | nil => simp [firstMatchSuffix] at h
  | cons c t ih =>
    by_cases hc : tailMatch (c :: t) = true
    · rw [firstMatchSuffix, if_pos hc] at h
      cases h
      exact hc
    · rw [firstMatchSuffix, if_neg hc] at h
      exact ih h

theorem firstMatchSuffix_self (m : List Char) (h : tailMatch m = true) :
    firstMatchSuffix m = some m := by
  cases m with
  | nil => simp [tailMatch] at h
  | cons c t => rw [firstMatchSuffix, if_pos h]

theorem firstMatchSuffix_none_tail (c : Char) (t : List Char)
    (h : firstMatchSuffix (c :: t) = none) : firstMatchSuffix t = none := by
  by_cases hc : tailMatch (c :: t) = true
  · rw [firstMatchSuffix, if_pos hc] at h
    exact Option.noConfusion h
  · rw [firstMatchSuffix, if_neg hc] at h
    exact h

/-- C7 counterexample: `normalizeVersion` is not idempotent on `vv`:
one application strips one leading `v` giving `v`, a second strips the
other giving the empty string. -/
theorem C7_vv_counterexample :
    normalizeVersion (normalizeVersion "vv".toList) ≠ normalizeVersion "vv".toList := by
  decide

/-- C7 (amended): `normalizeVersion` is idempotent on every input
except those that contain no `digits.digits` occurrence AND begin with
two `v`s (where each application strips one leading `v`).  The
hypothesis states exactly that exception. -/
theorem C7_normalize_idempotent (v : List Char)
    (h : v.take 2 = ['v', 'v'] → firstMatchSuffix v ≠ none) :
    normalizeVersion (normalizeVersion v) = normalizeVersion v := by
  by_cases hv : v = []
  · subst hv
    rfl
  cases hm : firstMatchSuffix v with
  | some m =>
    have ht := firstMatchSuffix_tailMatch v m hm
    have hne := tailMatch_nonempty m ht
    have h1 : normalizeVersion v = m := by
      simp [normalizeVersion, hv, hm]
    rw [h1]
    simp [normalizeVersion, hne, firstMatchSuffix_self m ht]
  | none =>
    rcases v with _ | ⟨c, t⟩
    · exact absurd rfl hv
    by_cases hc : c = 'v'
    · subst hc
      have h1 : normalizeVersion ('v' :: t) = t := by
        simp [normalizeVersion, hm]
      rw [h1]
      cases t with
      | nil => rfl
      | cons c2 t2 =>
        have hc2 : c2 ≠ 'v' := by
          intro he
          subst he
          exact (h (by simp [List.take])) hm
        have hnone2 : firstMatchSuffix (c2 :: t2) = none :=
          firstMatchSuffix_none_tail 'v' (c2 :: t2) hm
        simp only [normalizeVersion, hnone2, if_neg (by simp : ¬c2 :: t2 = [])]
        split
        · rename_i heq
          rw [List.cons_eq_cons] at heq
          exact absurd heq.1 hc2
        · rfl
    · have h1 : normalizeVersion (c :: t) = c :: t := by
        simp only [normalizeVersion, hm, if_neg (by simp : ¬c :: t = [])]
        split
        · rename_i heq
          rw [List.cons_eq_cons] at heq
          exact absurd heq.1 hc
        · rfl
      rw [h1, h1]

/-- Witness for C7 at an ordinary tag. -/
theorem C7_normalize_idempotent_witness :
    normalizeVersion (normalizeVersion "v1.2.3".toList)
      = normalizeVersion "v1.2.3".toList :=
  C7_normalize_idempotent "v1.2.3".toList (by decide)

/-- Scan for a hyphen whose following WHOLE segment (up to the next
dot, hyphen or end, lower-cased) is one of the markers — the
delimited-segment reading of the claim, for comparison with the code's
substring test. -/
def delimitedMarkerScan : List Char → Bool
  | [] => false
  | c :: rest =>
    (c = '-' && preMarkers.any fun m =>
      ((rest.takeWhile fun x => decide (x ≠ '.') && decide (x ≠ '-')).map asciiLower) = m) ||
      delimitedMarkerScan rest

/-- The claim's delimited-segment prerelease predicate (spec wording of
C8), for comparison with `isPrerelease`. -/
def isPrereleaseDelimitedSpec (v : List Char) : Bool :=
  delimitedMarkerScan (normalizeVersion v)

/-- C8 counterexample: `1.2.0-president` contains `-pre` as a raw
substring, so the code's regex classifies it as a prerelease, although
`president` is not a delimited marker segment — the claim says such an
input is NOT a prerelease. -/
theorem C8_president_counterexample :
    isPrerelease "1.2.0-president".toList = true ∧
    isPrereleaseDelimitedSpec "1.2.0-president".toList = false := by
  refine ⟨by decide, by decide⟩

/-- The substring scan succeeds exactly when some hyphen is
immediately followed (case-insensitively) by a marker. -/
theorem hyphenMarker_iff (s : List Char) :
    hyphenMarker s = true ↔
      ∃ p q m, s = p ++ '-' :: q ∧ m ∈ preMarkers ∧ startsWithCI m q = true := by
  induction s with
  | nil =>
    constructor
    · intro h
      simp [hyphenMarker] at h
    · rintro ⟨p, q, m, hpq, -, -⟩
      cases p <;> simp at hpq
  | cons c t ih =>
    rw [hyphenMarker, Bool.or_eq_true]
    constructor
    · intro h
      rcases h with h | h
      · rw [Bool.and_eq_true] at h
        obtain ⟨hc, hany⟩ := h
        have hc' : c = '-' := by simpa using hc
        rw [List.any_eq_true] at hany
        obtain ⟨m, hmem, hsw⟩ := hany
        exact ⟨[], t, m, by simp [hc'], hmem, hsw⟩
      · obtain ⟨p, q, m, hpq, hmem, hsw⟩ := ih.mp h
        exact ⟨c :: p, q, m, by simp [hpq], hmem, hsw⟩
    · rintro ⟨p, q, m, hpq, hmem, hsw⟩
      cases p with
      | nil =>
        simp only [List.nil_append, List.cons_eq_cons] at hpq
        obtain ⟨hc, ht⟩ := hpq
        subst hc
        subst ht
        left
        rw [Bool.and_eq_true]
        refine ⟨by simp, ?_⟩
        rw [List.any_eq_true]
        exact ⟨m, hmem, hsw⟩
      | cons c2 p2 =>
        simp only [List.cons_append, List.cons_eq_cons] at hpq
        obtain ⟨hc, ht⟩ := hpq
        subst hc
        right
        exact ih.mpr ⟨p2, q, m, ht, hmem, hsw⟩

/-- C8 (amended): `isPrerelease` holds exactly when the normalized
version contains a hyphen immediately followed — case-insensitively,
as a raw prefix of the remaining text, delimited or not — by one of
the markers alpha, beta, rc, next, canary, pre. -/
theorem C8_prerelease_iff_marker_after_hyphen (v : List Char) :
    isPrerelease v = true ↔
      ∃ p q m, normalizeVersion v = p ++ '-' :: q ∧ m ∈ preMarkers ∧
        startsWithCI m q = true := by
  rw [isPrerelease]
  exact hyphenMarker_iff (normalizeVersion v)

/-- Join groups with a separator (inverse of `splitOn` for
separator-free groups). -/
def joinSep (sep : Char) : List (List Char) → List Char
  | [] => []
  | [g] => g
  | g :: gs => g ++ sep :: joinSep sep gs

/-- A version string assembled from its integer core components and an
optional hyphen-separated prerelease label — the claim's data model of
a normalized version. -/
def mkVer (core : List (List Char)) (pre : Option (List Char)) : List Char :=
  joinSep '.' core ++
    (match pre with
     | none => []
     | some l => '-' :: l)

/-- ASCII alphanumeric character. -/
def alnumCh (c : Char) : Bool :=
  jsDigit c || ('a' ≤ c && c ≤ 'z') || ('A' ≤ c && c ≤ 'Z')

/-- The claim's domain for C6 (spec §3): a sequence of non-negative
integer components plus an optional hyphen-separated prerelease label
whose dot-separated tokens are alphanumeric. -/
def NormalizedShape (v : List Char) : Prop :=
  ∃ core pre, v = mkVer core pre ∧ core ≠ [] ∧
    (∀ g ∈ core, g ≠ [] ∧ g.all jsDigit = true) ∧
    (∀ l, pre = some l → ∀ t ∈ splitOn '.' l, t.all alnumCh = true)

/-- Core shape used by the amended C6: at least two dot-separated
nonempty integer components (so renormalization inside
`compareVersions` is the identity and every core component parses as a
number). -/
def GoodCore (c : List (List Char)) : Prop :=
  2 ≤ c.length ∧ ∀ g ∈ c, g ≠ [] ∧ g.all jsDigit = true

/-- Label shape used by the amended C6: no line-terminator characters
(anything else is allowed). -/
def labelOk : Option (List Char) → Bool
  | none => true
  | some l => l.all jsDotOk

/-- Interpretation of a non-NaN JavaScript number in the linear order
`WithBot (WithTop ℚ)` (NaN is mapped to an arbitrary junk value and
always excluded by hypothesis). -/
def toE : JsNum → WithBot (WithTop ℚ)
  | JsNum.nan => ⊥
  | JsNum.negInf => ⊥
  | JsNum.posInf => ((⊤ : WithTop ℚ) : WithBot (WithTop ℚ))
  | JsNum.num f => ((f.toRat : WithTop ℚ) : WithBot (WithTop ℚ))

theorem fracLt_eq_decide (a b : Frac) :
    fracLt a b = decide (a.toRat < b.toRat) := by
  rw [fracLt]
  rw [decide_eq_decide]
  rw [Frac.toRat, Frac.toRat]
  rw [div_lt_div_iff₀ (by exact_mod_cast a.dpos) (by exact_mod_cast b.dpos)]
  constructor
  · intro h
    exact_mod_cast h
  · intro h
    exact_mod_cast h

/-- JavaScript `<` agrees with the `toE` interpretation away from
NaN. -/
theorem jsLt_toE (x y : JsNum) (hx : x.isNaN = false) (hy : y.isNaN = false) :
    jsLt x y = decide (toE x < toE y) := by
  cases x with
  | nan => simp [JsNum.isNaN] at hx
  | negInf =>
    cases y with
    | nan => simp [JsNum.isNaN] at hy
    | negInf => simp [jsLt, toE]
    | posInf => simp [jsLt, toE, WithBot.bot_lt_coe]
    | num f => simp [jsLt, toE, WithBot.bot_lt_coe]
  | posInf =>
    cases y with
    | nan => simp [JsNum.isNaN] at hy
    | negInf => simp [jsLt, toE]
    | posInf => simp [jsLt, toE]
    | num f =>
      simp only [jsLt, toE]
      rw [eq_comm, decide_eq_false_iff_not, WithBot.coe_lt_coe]
      exact fun h => absurd h (by simp)
  | num f =>
    cases y with
    | nan => simp [JsNum.isNaN] at hy
    | negInf => simp [jsLt, toE]
    | posInf =>
      simp only [jsLt, toE]
      rw [eq_comm, decide_eq_true_iff, WithBot.coe_lt_coe]
      exact WithTop.coe_lt_top _
    | num g =>
      simp only [jsLt, toE, fracLt_eq_decide]
      rw [decide_eq_decide, WithBot.coe_lt_coe, WithTop.coe_lt_coe]

/-- `numCmp` through the `toE` interpretation. -/
theorem numCmp_toE (x y : JsNum) (hx : x.isNaN = false) (hy : y.isNaN = false) :
    numCmp x y = if toE y < toE x then 1 else if toE x < toE y then -1 else 0 := by
  rw [numCmp, jsGt, jsLt_toE y x hy hx, jsLt_toE x y hx hy]
  simp

theorem numCmp_eq_zero_toE (x y : JsNum) (hx : x.isNaN = false)
    (hy : y.isNaN = false) (h : numCmp x y = 0) : toE x = toE y := by
  rw [numCmp_toE x y hx hy] at h
  by_cases h1 : toE y < toE x
  · simp [h1] at h
  · by_cases h2 : toE x < toE y
    · simp [h1, h2] at h
    · exact le_antisymm (not_lt.mp h1) (not_lt.mp h2)

theorem numCmp_eq_one_toE (x y : JsNum) (hx : x.isNaN = false)
    (hy : y.isNaN = false) : numCmp x y = 1 ↔ toE y < toE x := by
  rw [numCmp_toE x y hx hy]
  constructor
  · intro h
    by_cases h1 : toE y < toE x
    · exact h1
    · by_cases h2 : toE x < toE y <;> simp [h1, h2] at h
  · intro h
    simp [h]

theorem numCmp_congr (x x2 y y2 : JsNum) (hx : x.isNaN = false)
    (hx2 : x2.isNaN = false) (hy : y.isNaN = false) (hy2 : y2.isNaN = false)
    (ex : toE x = toE x2) (ey : toE y = toE y2) : numCmp x y = numCmp x2 y2 := by
  rw [numCmp_toE x y hx hy, numCmp_toE x2 y2 hx2 hy2, ex, ey]

theorem numCmp_antisymm (x y : JsNum) (hx : x.isNaN = false)
    (hy : y.isNaN = false) : numCmp y x = -numCmp x y := by
  rw [numCmp_toE x y hx hy, numCmp_toE y x hy hx]
  rcases lt_trichotomy (toE x) (toE y) with h | h | h
  · simp [h, asymm h]
  · simp [h]
  · simp [h, asymm h]

/-- No element of the list is NaN (true of every parsed version
core whose components are digit strings). -/
def AllNN (xs : List JsNum) : Prop :=
  ∀ x ∈ xs, x.isNaN = false

theorem allNN_nil : AllNN [] :=
  fun x hx => absurd hx (List.not_mem_nil x)

theorem headD_nn (xs : List JsNum) (h : AllNN xs) :
    (xs.headD jsZero).isNaN = false := by
  cases xs with
  | nil => rfl
  | cons x t => exact h x (by simp)

theorem tail_nn (xs : List JsNum) (h : AllNN xs) : AllNN xs.tail := by
  cases xs with
  | nil => exact allNN_nil
  | cons x t => exact fun y hy => h y (List.mem_cons_of_mem x hy)

/-- One-step unfolding of the core loop in head/tail form. -/
theorem cmpCore_unfold (xs ys : List JsNum) (h : ¬(xs = [] ∧ ys = [])) :
    cmpCore xs ys =
      if numCmp (xs.headD jsZero) (ys.headD jsZero) ≠ 0 then
        numCmp (xs.headD jsZero) (ys.headD jsZero)
      else cmpCore xs.tail ys.tail := by
  match xs, ys with
  | [], [] => exact absurd ⟨rfl, rfl⟩ h
  | [], y :: ys => rfl
  | x :: xs, [] => rfl
  | x :: xs, y :: ys => rfl

theorem cmpCore_antisymm_aux : ∀ n (xs ys : List JsNum),
    xs.length + ys.length ≤ n → AllNN xs → AllNN ys →
    cmpCore ys xs = -cmpCore xs ys := by
  intro n
  induction n with
  | zero =>
    intro xs ys hlen _ _
    have hx : xs = [] := List.eq_nil_of_length_eq_zero (by omega)
    have hy : ys = [] := List.eq_nil_of_length_eq_zero (by omega)
    subst hx
    subst hy
    decide
  | succ n ih =>
    intro xs ys hlen hxs hys
    by_cases hboth : xs = [] ∧ ys = []
    · obtain ⟨h1, h2⟩ := hboth
      subst h1
      subst h2
      decide
    · have hpos : 1 ≤ xs.length + ys.length := by
        rcases not_and_or.mp hboth with h | h <;>
          [have := List.length_pos.mpr h; have := List.length_pos.mpr h] <;> omega
      rw [cmpCore_unfold xs ys hboth,
        cmpCore_unfold ys xs (fun hh => hboth ⟨hh.2, hh.1⟩),
        numCmp_antisymm (xs.headD jsZero) (ys.headD jsZero) (headD_nn xs hxs)
          (headD_nn ys hys),
        ih xs.tail ys.tail (by simp [List.length_tail]; omega) (tail_nn xs hxs)
          (tail_nn ys hys)]
      generalize numCmp (xs.headD jsZero) (ys.headD jsZero) = c
      generalize cmpCore xs.tail ys.tail = r
      by_cases hc : c = 0
      · simp [hc]
      · simp [hc]

theorem cmpCore_antisymm (xs ys : List JsNum) (hx : AllNN xs) (hy : AllNN ys) :
    cmpCore ys xs = -cmpCore xs ys :=
  cmpCore_antisymm_aux (xs.length + ys.length) xs ys le_rfl hx hy

theorem cmpCore_zero_subst_aux : ∀ n (xs ys zs : List JsNum),
    xs.length + ys.length + zs.length ≤ n → AllNN xs → AllNN ys → AllNN zs →
    cmpCore xs ys = 0 → cmpCore xs zs = cmpCore ys zs := by
  intro n
  induction n with
  | zero =>
    intro xs ys zs hlen _ _ _ _
    have hx : xs = [] := List.eq_nil_of_length_eq_zero (by omega)
    have hy : ys = [] := List.eq_nil_of_length_eq_zero (by omega)
    subst hx
    subst hy
    rfl
  | succ n ih =>
    intro xs ys zs hlen hxs hys hzs h0
    by_cases hxy : xs = [] ∧ ys = []
    · obtain ⟨h1, h2⟩ := hxy
      subst h1
      subst h2
      rfl
    · by_cases hxz : xs = [] ∧ zs = []
      · obtain ⟨h1, h2⟩ := hxz
        subst h1
        subst h2
        rw [cmpCore_antisymm [] ys allNN_nil hys, h0]
        decide
      · by_cases hyz : ys = [] ∧ zs = []
        · obtain ⟨h1, h2⟩ := hyz
          subst h1
          subst h2
          rw [h0]
          rfl
        · rw [cmpCore_unfold xs ys hxy] at h0
          rw [cmpCore_unfold xs zs hxz, cmpCore_unfold ys zs hyz]
          by_cases hc : numCmp (xs.headD jsZero) (ys.headD jsZero) = 0
          · have htoE := numCmp_eq_zero_toE _ _ (headD_nn xs hxs) (headD_nn ys hys) hc
            have hcongr : numCmp (xs.headD jsZero) (zs.headD jsZero)
                = numCmp (ys.headD jsZero) (zs.headD jsZero) :=
              numCmp_congr _ _ _ _ (headD_nn xs hxs) (headD_nn ys hys)
                (headD_nn zs hzs) (headD_nn zs hzs) htoE rfl
            rw [if_neg (fun hh => hh hc)] at h0
            have hpos : 1 ≤ xs.length + ys.length + zs.length := by
              rcases not_and_or.mp hxy with h | h <;>
                [have := List.length_pos.mpr h; have := List.length_pos.mpr h] <;> omega
            rw [hcongr, ih xs.tail ys.tail zs.tail
              (by simp [List.length_tail]; omega) (tail_nn xs hxs) (tail_nn ys hys)
              (tail_nn zs hzs) h0]
          · rw [if_pos hc] at h0
            exact absurd h0 hc

theorem cmpCore_zero_subst (xs ys zs : List JsNum) (hx : AllNN xs) (hy : AllNN ys)
    (hz : AllNN zs) (h0 : cmpCore xs ys = 0) : cmpCore xs zs = cmpCore ys zs :=
  cmpCore_zero_subst_aux (xs.length + ys.length + zs.length) xs ys zs le_rfl hx hy hz h0

theorem cmpCore_trans_aux : ∀ n (xs ys zs : List JsNum),
    xs.length + ys.length + zs.length ≤ n → AllNN xs → AllNN ys → AllNN zs →
    cmpCore xs ys = 1 → cmpCore ys zs = 1 → cmpCore xs zs = 1 := by
  intro n
  induction n with
  | zero =>
    intro xs ys zs hlen _ _ _ h1 _
    have hx : xs = [] := List.eq_nil_of_length_eq_zero (by omega)
    have hy : ys = [] := List.eq_nil_of_length_eq_zero (by omega)
    subst hx
    subst hy
    exact absurd h1 (by decide)
  | succ n ih =>
    intro xs ys zs hlen hxs hys hzs h1 h2
    by_cases hxy : xs = [] ∧ ys = []
    · obtain ⟨e1, e2⟩ := hxy
      subst e1
      subst e2
      exact absurd h1 (by decide)
    · by_cases hyz : ys = [] ∧ zs = []
      · obtain ⟨e1, e2⟩ := hyz
        subst e1
        subst e2
        exact absurd h2 (by decide)
      · by_cases hxz : xs = [] ∧ zs = []
        · obtain ⟨e1, e2⟩ := hxz
          subst e1
          subst e2
          rw [cmpCore_antisymm [] ys allNN_nil hys, h1] at h2
          exact absurd h2 (by decide)
        · rw [cmpCore_unfold xs ys hxy] at h1
          rw [cmpCore_unfold ys zs hyz] at h2
          rw [cmpCore_unfold xs zs hxz]
          have hpos : 1 ≤ xs.length + ys.length + zs.length := by
            rcases not_and_or.mp hxy with h | h <;>
              [have := List.length_pos.mpr h; have := List.length_pos.mpr h] <;> omega
          by_cases hc1 : numCmp (xs.headD jsZero) (ys.headD jsZero) = 0
          · have e12 := numCmp_eq_zero_toE _ _ (headD_nn xs hxs) (headD_nn ys hys) hc1
            rw [if_neg (fun hh => hh hc1)] at h1
            by_cases hc2 : numCmp (ys.headD jsZero) (zs.headD jsZero) = 0
            · have e23 := numCmp_eq_zero_toE _ _ (headD_nn ys hys) (headD_nn zs hzs) hc2
              rw [if_neg (fun hh => hh hc2)] at h2
              have hc13 : numCmp (xs.headD jsZero) (zs.headD jsZero) = 0 := by
                rw [numCmp_congr _ (ys.headD jsZero) _ (zs.headD jsZero)
                  (headD_nn xs hxs) (headD_nn ys hys) (headD_nn zs hzs)
                  (headD_nn zs hzs) e12 rfl]
                exact hc2
              rw [if_neg (fun hh => hh hc13)]
              exact ih xs.tail ys.tail zs.tail (by simp [List.length_tail]; omega)
                (tail_nn xs hxs) (tail_nn ys hys) (tail_nn zs hzs) h1 h2
            · rw [if_pos hc2] at h2
              have hc13 : numCmp (xs.headD jsZero) (zs.headD jsZero) = 1 := by
                rw [numCmp_congr _ (ys.headD jsZero) _ (zs.headD jsZero)
                  (headD_nn xs hxs) (headD_nn ys hys) (headD_nn zs hzs)
                  (headD_nn zs hzs) e12 rfl]
                exact h2
              rw [if_pos (by rw [hc13]; decide)]
              exact hc13
          · rw [if_pos hc1] at h1
            by_cases hc2 : numCmp (ys.headD jsZero) (zs.headD jsZero) = 0
            · have e23 := numCmp_eq_zero_toE _ _ (headD_nn ys hys) (headD_nn zs hzs) hc2
              have hc13 : numCmp (xs.headD jsZero) (zs.headD jsZero) = 1 := by
                rw [numCmp_congr _ (xs.headD jsZero) _ (ys.headD jsZero)
                  (headD_nn xs hxs) (headD_nn xs hxs) (headD_nn zs hzs)
                  (headD_nn ys hys) rfl e23.symm]
                exact h1
              rw [if_pos (by rw [hc13]; decide)]
              exact hc13
            · rw [if_pos hc2] at h2
              have lt12 := (numCmp_eq_one_toE _ _ (headD_nn xs hxs)
                (headD_nn ys hys)).mp h1
              have lt23 := (numCmp_eq_one_toE _ _ (headD_nn ys hys)
                (headD_nn zs hzs)).mp h2
              have hc13 : numCmp (xs.headD jsZero) (zs.headD jsZero) = 1 :=
                (numCmp_eq_one_toE _ _ (headD_nn xs hxs) (headD_nn zs hzs)).mpr
                  (lt_trans lt23 lt12)
              rw [if_pos (by rw [hc13]; decide)]
              exact hc13

theorem cmpCore_trans_one (xs ys zs : List JsNum) (hx : AllNN xs) (hy : AllNN ys)
    (hz : AllNN zs) (h1 : cmpCore xs ys = 1) (h2 : cmpCore ys zs = 1) :
    cmpCore xs zs = 1 :=
  cmpCore_trans_aux (xs.length + ys.length + zs.length) xs ys zs le_rfl hx hy hz h1 h2

theorem lexLt_asymm : ∀ p q : List Char, lexLt p q = true → lexLt q p = false := by
  intro p
  induction p with
  | nil =>
    intro q h
    cases q with
    | nil => simp [lexLt] at h
    | cons b ys => rfl
  | cons a xs ih =>
    intro q h
    cases q with
    | nil => simp [lexLt] at h
    | cons b ys =>
      simp only [lexLt] at h ⊢
      by_cases h1 : a.toNat < b.toNat
      · rw [if_neg (by omega), if_pos h1]
      · by_cases h2 : b.toNat < a.toNat
        · rw [if_neg h1, if_pos h2] at h
          exact absurd h (by decide)
        · rw [if_neg h2, if_neg h1] at h
          rw [if_neg h2, if_neg h1]
          exact ih ys h

theorem lexLt_trans : ∀ p q r : List Char, lexLt p q = true → lexLt q r = true →
    lexLt p r = true := by
  intro p
  induction p with
  | nil =>
    intro q r h1 h2
    cases q with
    | nil => simp [lexLt] at h1
    | cons b ys =>
      cases r with
      | nil => simp [lexLt] at h2
      | cons c zs => rfl
  | cons a xs ih =>
    intro q r h1 h2
    cases q with
    | nil => simp [lexLt] at h1
    | cons b ys =>
      cases r with
      | nil => simp [lexLt] at h2
      | cons c zs =>
        simp only [lexLt] at h1 h2 ⊢
        by_cases hab : a.toNat < b.toNat
        · by_cases hbc : b.toNat < c.toNat
          · rw [if_pos (by omega)]
          · rw [if_neg hbc] at h2
            by_cases hcb : c.toNat < b.toNat
            · simp [hcb] at h2
            · rw [if_pos (by omega)]
        · rw [if_neg hab] at h1
          by_cases hba : b.toNat < a.toNat
          · simp [hba] at h1
          · rw [if_neg hba] at h1
            by_cases hbc : b.toNat < c.toNat
            · rw [if_pos (by omega)]
            · rw [if_neg hbc] at h2
              by_cases hcb : c.toNat < b.toNat
              · simp [hcb] at h2
              · rw [if_neg hcb] at h2
                rw [if_neg (by omega), if_neg (by omega)]
                exact ih ys zs h1 h2

theorem lexLt_nlt_eq : ∀ p q : List Char, lexLt p q = false → lexLt q p = false →
    p = q := by
  intro p
  induction p with
  | nil =>
    intro q h1 _
    cases q with
    | nil => rfl
    | cons b ys => simp [lexLt] at h1
  | cons a xs ih =>
    intro q h1 h2
    cases q with
    | nil => simp [lexLt] at h2
    | cons b ys =>
      simp only [lexLt] at h1 h2
      by_cases hab : a.toNat < b.toNat
      · simp [hab] at h1
      · rw [if_neg hab] at h1
        by_cases hba : b.toNat < a.toNat
        · simp [hba] at h2
        · rw [if_neg hba] at h1
          rw [if_neg hba, if_neg hab] at h2
          have htn : a.toNat = b.toNat := by omega
          have hc : a = b := Char.ext (UInt32.ext htn)
          rw [hc, ih ys h1 h2]

/-- Is this segment treated as numeric by the prerelease comparison
(`!isNaN(Number(p)) && p !== ''`)? -/
def isNb (p : List Char) : Bool :=
  !(strToNumber p).isNaN && decide (p ≠ [])

theorem isNb_nn (p : List Char) (h : isNb p = true) :
    (strToNumber p).isNaN = false := by
  rw [isNb, Bool.and_eq_true, Bool.not_eq_true'] at h
  exact h.1

theorem segCmp_eq (p q : List Char) : segCmp p q =
    if isNb p && isNb q then numCmp (strToNumber p) (strToNumber q)
    else if isNb p then -1
    else if isNb q then 1
    else if lexLt q p then 1 else if lexLt p q then -1 else 0 := rfl

theorem segCmp_antisymm (p q : List Char) : segCmp q p = -segCmp p q := by
  rw [segCmp_eq, segCmp_eq]
  by_cases hp : isNb p = true <;> by_cases hq : isNb q = true
  · simp only [hp, hq, Bool.and_self, if_true]
    exact numCmp_antisymm (strToNumber p) (strToNumber q) (isNb_nn p hp) (isNb_nn q hq)
  · simp [hp, hq]
  · simp [hp, hq]
  · by_cases l1 : lexLt p q = true
    · have l2 := lexLt_asymm p q l1
      simp [hp, hq, l1, l2]
    · by_cases l2 : lexLt q p = true
      · have l3 := lexLt_asymm q p l2
        simp [hp, hq, l1, l2, l3]
      · simp [hp, hq, l1, l2]

theorem segCmp_trans_one (p q r : List Char) (h1 : segCmp p q = 1)
    (h2 : segCmp q r = 1) : segCmp p r = 1 := by
  rw [segCmp_eq] at h1 h2 ⊢
  by_cases hp : isNb p = true <;> by_cases hq : isNb q = true <;>
    by_cases hr : isNb r = true
  · -- all numeric: transitivity through toE
    simp only [hp, hq, hr, Bool.and_self, if_true] at h1 h2 ⊢
    have lt1 := (numCmp_eq_one_toE _ _ (isNb_nn p hp) (isNb_nn q hq)).mp h1
    have lt2 := (numCmp_eq_one_toE _ _ (isNb_nn q hq) (isNb_nn r hr)).mp h2
    exact (numCmp_eq_one_toE _ _ (isNb_nn p hp) (isNb_nn r hr)).mpr (lt_trans lt2 lt1)
  · simp [hq, hr] at h2
  · simp [hp, hq] at h1
  · simp [hp, hq] at h1
  · simp [hp, hq, hr]
  · simp [hq, hr] at h2
  · simp [hp, hq, hr]
  · -- p, q, r all strings: lexicographic transitivity
    simp [hp, hq, hr] at h1 h2 ⊢
    by_cases l1 : lexLt q p = true
    · by_cases l2 : lexLt r q = true
      · simp [lexLt_trans r q p l2 l1]
      · simp [l2] at h2
        by_cases l3 : lexLt q r = true
        · simp [l3] at h2
        · simp [l3] at h2
    · simp [l1] at h1
      by_cases l3 : lexLt p q = true
      · simp [l3] at h1
      · simp [l3] at h1

theorem segCmp_zero_subst_left (p q : List Char) (h0 : segCmp p q = 0) :
    ∀ r, segCmp p r = segCmp q r := by
  intro r
  rw [segCmp_eq p q] at h0
  by_cases hp : isNb p = true <;> by_cases hq : isNb q = true <;>
    simp only [hp, hq] at h0
  · simp only [Bool.and_self, if_pos] at h0
    have he := numCmp_eq_zero_toE _ _ (isNb_nn p hp) (isNb_nn q hq) h0
    rw [segCmp_eq, segCmp_eq]
    by_cases hr : isNb r = true
    · simp only [hp, hq, hr, Bool.and_self, if_pos]
      exact numCmp_congr _ _ _ _ (isNb_nn p hp) (isNb_nn q hq) (isNb_nn r hr)
        (isNb_nn r hr) he rfl
    · simp [hp, hq, hr]
  · simp at h0
  · simp at h0
  · simp only [Bool.and_self, Bool.false_and, Bool.false_eq_true, if_false] at h0
    have hpq : p = q := by
      by_cases l1 : lexLt q p = true
      · simp [l1] at h0
      · rw [if_neg l1] at h0
        by_cases l2 : lexLt p q = true
        · simp [l2] at h0
        · exact lexLt_nlt_eq p q (by simpa using l2) (by simpa using l1)
    rw [hpq]

theorem segCmp_zero_subst_right (p q r : List Char) (h0 : segCmp q r = 0) :
    segCmp p r = segCmp p q := by
  have h0s : segCmp r q = 0 := by
    rw [segCmp_antisymm q r, h0]
    decide
  have a1 := segCmp_antisymm p r
  have a2 := segCmp_antisymm p q
  have s := segCmp_zero_subst_left r q h0s p
  omega

theorem cmpPre_trans_one : ∀ a b c : List (List Char),
    cmpPre a b = 1 → cmpPre b c = 1 → cmpPre a c = 1 := by
  intro a
  induction a with
  | nil =>
    intro b c h1 _
    cases b <;> simp [cmpPre] at h1
  | cons p as ih =>
    intro b c h1 h2
    cases b with
    | nil => cases c <;> simp [cmpPre] at h2
    | cons q bs =>
      cases c with
      | nil => rfl
      | cons r cs =>
        simp only [cmpPre] at h1 h2 ⊢
        by_cases hq : segCmp p q = 0
        · rw [if_neg (fun hh => hh hq)] at h1
          by_cases hr : segCmp q r = 0
          · rw [if_neg (fun hh => hh hr)] at h2
            have h13 : segCmp p r = 0 := by
              rw [segCmp_zero_subst_left p q hq r]
              exact hr
            rw [if_neg (fun hh => hh h13)]
            exact ih bs cs h1 h2
          · rw [if_pos hr] at h2
            have h13 : segCmp p r = 1 := by
              rw [segCmp_zero_subst_left p q hq r]
              exact h2
            rw [if_pos (by rw [h13]; decide)]
            exact h13
        · rw [if_pos hq] at h1
          by_cases hr : segCmp q r = 0
          · have h13 : segCmp p r = 1 := by
              rw [segCmp_zero_subst_right p q r hr]
              exact h1
            rw [if_pos (by rw [h13]; decide)]
            exact h13
          · rw [if_pos hr] at h2
            have h13 := segCmp_trans_one p q r h1 h2
            rw [if_pos (by rw [h13]; decide)]
            exact h13

/-- The prerelease-presence branch of `compareVersions` (lines 48-54):
no-prerelease beats prerelease; two prereleases fall through to the
segment loop. -/
def preCmpFlag (l1 l2 : List Char) : Int :=
  if l1 = [] && l2 ≠ [] then 1
  else if l1 ≠ [] && l2 = [] then -1
  else if l1 = [] && l2 = [] then 0
  else cmpPre (splitOn '.' l1) (splitOn '.' l2)

theorem preCmpFlag_trans_one (l1 l2 l3 : List Char) (h1 : preCmpFlag l1 l2 = 1)
    (h2 : preCmpFlag l2 l3 = 1) : preCmpFlag l1 l3 = 1 := by
  unfold preCmpFlag at h1 h2 ⊢
  by_cases e1 : l1 = [] <;> by_cases e2 : l2 = [] <;> by_cases e3 : l3 = [] <;>
    simp only [e1, e2, e3] at h1 h2 ⊢ <;> simp_all
  exact cmpPre_trans_one _ _ _ h1 h2

theorem jsDigit_dotOk (c : Char) (h : jsDigit c = true) : jsDotOk c = true := by
  have h1 : c ≠ '\n' := fun he => by subst he; exact absurd h (by decide)
  have h2 : c ≠ '\r' := fun he => by subst he; exact absurd h (by decide)
  have h3 : c ≠ '\u2028' := fun he => by subst he; exact absurd h (by decide)
  have h4 : c ≠ '\u2029' := fun he => by subst he; exact absurd h (by decide)
  simp [jsDotOk, jsLineTerm, h1, h2, h3, h4]

theorem jsDigit_not_ws (c : Char) (h : jsDigit c = true) : jsStrWs c = false := by
  have h1 : c ≠ ' ' := fun he => by subst he; exact absurd h (by decide)
  have h2 : c ≠ '\t' := fun he => by subst he; exact absurd h (by decide)
  have h3 : c ≠ '\u000b' := fun he => by subst he; exact absurd h (by decide)
  have h4 : c ≠ '\u000c' := fun he => by subst he; exact absurd h (by decide)
  have h5 : c ≠ '\r' := fun he => by subst he; exact absurd h (by decide)
  have h6 : c ≠ '\n' := fun he => by subst he; exact absurd h (by decide)
  have h7 : c ≠ '\u00A0' := fun he => by subst he; exact absurd h (by decide)
  have h8 : c ≠ '\uFEFF' := fun he => by subst he; exact absurd h (by decide)
  have h9 : c ≠ '\u2028' := fun he => by subst he; exact absurd h (by decide)
  have h10 : c ≠ '\u2029' := fun he => by subst he; exact absurd h (by decide)
  simp [jsStrWs, jsSpace, jsLineTerm, h1, h2, h3, h4, h5, h6, h7, h8, h9, h10]

theorem jsDigit_ne_hyphen (c : Char) (h : jsDigit c = true) : c ≠ '-' :=
  fun he => by subst he; exact absurd h (by decide)

theorem jsDigit_ne_dot (c : Char) (h : jsDigit c = true) : c ≠ '.' :=
  fun he => by subst he; exact absurd h (by decide)

theorem takeWhile_append_all (p : Char → Bool) (a b : List Char)
    (h : ∀ x ∈ a, p x = true) : (a ++ b).takeWhile p = a ++ b.takeWhile p := by
  induction a with
  | nil => rfl
  | cons x t ih =>
    simp only [List.cons_append, List.takeWhile_cons, h x (by simp), if_true]
    rw [ih fun y hy => h y (by simp [hy])]

theorem dropWhile_append_all (p : Char → Bool) (a b : List Char)
    (h : ∀ x ∈ a, p x = true) : (a ++ b).dropWhile p = b.dropWhile p := by
  induction a with
  | nil => rfl
  | cons x t ih =>
    simp only [List.cons_append, List.dropWhile_cons, h x (by simp)]
    exact ih fun y hy => h y (by simp [hy])

theorem dropWhile_eq_self_of_all (p : Char → Bool) (l : List Char)
    (h : ∀ x ∈ l, p x = false) : l.dropWhile p = l := by
  cases l with
  | nil => rfl
  | cons a t => simp [List.dropWhile_cons, h a (by simp)]

theorem dropWhile_all_true (p : Char → Bool) (l : List Char)
    (h : ∀ x ∈ l, p x = true) : l.dropWhile p = [] := by
  induction l with
  | nil => rfl
  | cons a t ih =>
    simp only [List.dropWhile_cons, h a (by simp)]
    exact ih fun y hy => h y (by simp [hy])

theorem trimWs_eq_self (l : List Char) (h : ∀ x ∈ l, jsStrWs x = false) :
    trimWs l = l := by
  rw [trimWs, dropWhile_eq_self_of_all _ _ h,
    dropWhile_eq_self_of_all _ _ (fun x hx => h x (List.mem_reverse.mp hx)),
    List.reverse_reverse]

theorem joinSep_cons_cons (sep : Char) (g1 g2 : List Char) (gs : List (List Char)) :
    joinSep sep (g1 :: g2 :: gs) = g1 ++ sep :: joinSep sep (g2 :: gs) := rfl

theorem joinSep_all (p : Char → Bool) (sep : Char) (hsep : p sep = true) :
    ∀ gs : List (List Char), (∀ g ∈ gs, ∀ c ∈ g, p c = true) →
      ∀ c ∈ joinSep sep gs, p c = true := by
  intro gs
  induction gs with
  | nil =>
    intro _ c hc
    simp [joinSep] at hc
  | cons g gs ih =>
    intro h c hc
    cases gs with
    | nil => exact h g (by simp) c (by simpa [joinSep] using hc)
    | cons g2 gs2 =>
      rw [joinSep_cons_cons] at hc
      rcases List.mem_append.mp hc with hc | hc
      · exact h g (by simp) c hc
      · rcases List.mem_cons.mp hc with rfl | hc
        · exact hsep
        · exact ih (fun g hg => h g (by simp [hg])) c hc

theorem joinSep_cons_shape (sep : Char) (d : Char) (g2t : List Char)
    (gs : List (List Char)) : ∃ w, joinSep sep ((d :: g2t) :: gs) = d :: w := by
  cases gs with
  | nil => exact ⟨g2t, rfl⟩
  | cons g gs2 => exact ⟨g2t ++ sep :: joinSep sep (g :: gs2), rfl⟩

theorem splitOn_no_sep (sep : Char) : ∀ g : List Char, (∀ c ∈ g, c ≠ sep) →
    splitOn sep g = [g] := by
  intro g
  induction g with
  | nil => intro _; rfl
  | cons c t ih =>
    intro h
    rw [splitOn, if_neg (h c (by simp)), ih fun y hy => h y (by simp [hy])]

theorem splitOn_sep_append (sep : Char) : ∀ (g rest : List Char),
    (∀ c ∈ g, c ≠ sep) → splitOn sep (g ++ sep :: rest) = g :: splitOn sep rest := by
  intro g
  induction g with
  | nil =>
    intro rest _
    simp [splitOn]
  | cons c t ih =>
    intro rest h
    rw [List.cons_append, splitOn, if_neg (h c (by simp)),
      ih rest fun y hy => h y (by simp [hy])]

theorem splitOn_joinSep (sep : Char) : ∀ gs : List (List Char), gs ≠ [] →
    (∀ g ∈ gs, ∀ c ∈ g, c ≠ sep) → splitOn sep (joinSep sep gs) = gs := by
  intro gs
  induction gs with
  | nil => intro h _; exact absurd rfl h
  | cons g gs ih =>
    intro _ h
    cases gs with
    | nil => exact splitOn_no_sep sep g (h g (by simp))
    | cons g2 gs2 =>
      rw [joinSep_cons_cons, splitOn_sep_append sep g _ (h g (by simp)),
        ih (by simp) fun g hg => h g (by simp [hg])]

/-- The text appended after the core by `mkVer`. -/
def labelTail : Option (List Char) → List Char
  | none => []
  | some l => '-' :: l

/-- The prerelease part `preOf` extracts back out of `mkVer`. -/
def labelOf : Option (List Char) → List Char
  | none => []
  | some l => l

theorem mkVer_eq (c : List (List Char)) (p : Option (List Char)) :
    mkVer c p = joinSep '.' c ++ labelTail p := by
  cases p <;> rfl

theorem goodCore_no_hyphen (c : List (List Char))
    (h : ∀ g ∈ c, g ≠ [] ∧ g.all jsDigit = true) :
    ∀ x ∈ joinSep '.' c, decide (x ≠ '-') = true := by
  apply joinSep_all _ '.' (by decide) c
  intro g hg x hx
  have := List.all_eq_true.mp (h g hg).2 x hx
  simp [jsDigit_ne_hyphen x this]

theorem verOf_mkVer (c : List (List Char)) (p : Option (List Char))
    (h : ∀ g ∈ c, g ≠ [] ∧ g.all jsDigit = true) :
    verOf (mkVer c p) = joinSep '.' c := by
  rw [mkVer_eq, verOf, takeWhile_append_all _ _ _ (goodCore_no_hyphen c h)]
  cases p with
  | none => simp [labelTail]
  | some l => simp [labelTail, List.takeWhile_cons]

theorem preOf_mkVer (c : List (List Char)) (p : Option (List Char))
    (h : ∀ g ∈ c, g ≠ [] ∧ g.all jsDigit = true) :
    preOf (mkVer c p) = labelOf p := by
  rw [mkVer_eq, preOf, dropWhile_append_all _ _ _ (goodCore_no_hyphen c h)]
  cases p with
  | none => simp [labelTail, labelOf]
  | some l => simp [labelTail, labelOf, List.dropWhile_cons]

theorem mkVer_all_dotOk (c : List (List Char)) (p : Option (List Char))
    (h : ∀ g ∈ c, g ≠ [] ∧ g.all jsDigit = true) (hl : labelOk p = true) :
    ∀ x ∈ mkVer c p, jsDotOk x = true := by
  intro x hx
  rw [mkVer_eq] at hx
  rcases List.mem_append.mp hx with hx | hx
  · refine joinSep_all jsDotOk '.' (by decide) c ?_ x hx
    intro g hg y hy
    exact jsDigit_dotOk y (List.all_eq_true.mp (h g hg).2 y hy)
  · cases p with
    | none => simp [labelTail] at hx
    | some l =>
      rcases List.mem_cons.mp hx with rfl | hx
      · decide
      · exact List.all_eq_true.mp hl x hx

theorem normalizeVersion_mkVer (c : List (List Char)) (p : Option (List Char))
    (hlen : 2 ≤ c.length) (h : ∀ g ∈ c, g ≠ [] ∧ g.all jsDigit = true)
    (hl : labelOk p = true) :
    normalizeVersion (mkVer c p) = mkVer c p := by
  obtain ⟨g1, c1⟩ : ∃ g1 c1, c = g1 :: c1 := by
    cases c with
    | nil => simp at hlen
    | cons g1 c1 => exact ⟨g1, c1, rfl⟩
  obtain ⟨c1, rfl⟩ := c1
  obtain ⟨g2, rest, rfl⟩ : ∃ g2 rest, c1 = g2 :: rest := by
    cases c1 with
    | nil => simp at hlen
    | cons g2 rest => exact ⟨g2, rest, rfl⟩
  have hg1 := h g1 (by simp)
  have hg2 := h g2 (by simp)
  have hg1d : ∀ x ∈ g1, jsDigit x = true := List.all_eq_true.mp hg1.2
  obtain ⟨d, g2t, hg2e⟩ : ∃ d g2t, g2 = d :: g2t := by
    cases g2 with
    | nil => exact absurd rfl hg2.1
    | cons d g2t => exact ⟨d, g2t, rfl⟩
  obtain ⟨w, hw⟩ := joinSep_cons_shape '.' d g2t rest
  have hv : mkVer (g1 :: g2 :: rest) p
      = g1 ++ '.' :: (d :: (w ++ labelTail p)) := by
    rw [mkVer_eq, joinSep_cons_cons, hg2e, hw]
    simp
  have hall : ∀ x ∈ mkVer (g1 :: g2 :: rest) p, jsDotOk x = true :=
    mkVer_all_dotOk _ p h hl
  have htm : tailMatch (mkVer (g1 :: g2 :: rest) p) = true := by
    rw [tailMatch]
    rw [hv, takeWhile_append_all _ _ _ hg1d, dropWhile_append_all _ _ _ hg1d]
    simp only [List.takeWhile_cons, List.dropWhile_cons,
      show jsDigit '.' = false by decide, Bool.false_eq_true, if_false,
      List.append_nil]
    rw [Bool.and_eq_true, decide_eq_true_iff]
    constructor
    · exact hg1.1
    · rw [Bool.and_eq_true]
      constructor
      · exact List.all_eq_true.mp hg2.2 d (by rw [hg2e]; simp)
      · rw [List.all_eq_true]
        intro x hx
        apply hall
        rw [hv]
        simp only [List.mem_append, List.mem_cons]
        right
        right
        simpa using hx
  obtain ⟨a, g1t, hg1e⟩ : ∃ a g1t, g1 = a :: g1t := by
    cases g1 with
    | nil => exact absurd rfl hg1.1
    | cons a g1t => exact ⟨a, g1t, rfl⟩
  have hcons : mkVer (g1 :: g2 :: rest) p
      = a :: (g1t ++ '.' :: (d :: (w ++ labelTail p))) := by
    rw [hv, hg1e]
    simp
  have hfms : firstMatchSuffix (mkVer (g1 :: g2 :: rest) p)
      = some (mkVer (g1 :: g2 :: rest) p) := by
    rw [hcons] at htm ⊢
    rw [firstMatchSuffix, if_pos htm]
  have hne : mkVer (g1 :: g2 :: rest) p ≠ [] := by rw [hcons]; simp
  simp only [normalizeVersion, hfms, if_neg hne]

theorem digits_take2_ne (g : List Char) (hd : ∀ x ∈ g, jsDigit x = true)
    (c2 : Char) (hc2 : jsDigit c2 = false) : g.take 2 ≠ ['0', c2] := by
  intro heq
  rcases g with _ | ⟨a, _ | ⟨b, g2⟩⟩
  · simp [List.take] at heq
  · simp [List.take] at heq
  · simp [List.take] at heq
    obtain ⟨-, h2⟩ := heq
    have hb := hd b (by simp)
    rw [h2, hc2] at hb
    exact Bool.noConfusion hb

theorem digits_take1_ne (g : List Char) (hd : ∀ x ∈ g, jsDigit x = true)
    (c1 : Char) (hc1 : jsDigit c1 = false) : g.take 1 ≠ [c1] := by
  intro heq
  rcases g with _ | ⟨a, g1⟩
  · simp [List.take] at heq
  · simp [List.take] at heq
    have ha := hd a (by simp)
    rw [heq, hc1] at ha
    exact Bool.noConfusion ha

/-- A nonempty all-digit string parses to a number (never NaN) — used
with `AllNN` below. -/
theorem strToNumber_digits_nn (g : List Char) (hne : g ≠ [])
    (hd : ∀ x ∈ g, jsDigit x = true) : (strToNumber g).isNaN = false := by
  have htrim : trimWs g = g :=
    trimWs_eq_self g fun x hx => jsDigit_not_ws x (hd x hx)
  have hInf : g ≠ "Infinity".toList := by
    intro he
    have := hd 'I' (by rw [he]; decide)
    exact absurd this (by decide)
  have htake : g.takeWhile jsDigit = g := takeWhile_all_eq jsDigit g hd
  have hdrop : g.dropWhile jsDigit = [] := dropWhile_all_true jsDigit g hd
  have hparse : parseUnsignedDec g = some (fracOfParts g [] 0) := by
    rw [parseUnsignedDec]
    simp only [htake, hdrop]
    rw [if_neg hne]
    rfl
  have hfinal : unsignedToNum g = JsNum.num (fracOfParts g [] 0) := by
    rw [unsignedToNum, if_neg hInf, hparse]
  rw [strToNumber]
  simp only [htrim]
  rw [if_neg hne,
    if_neg (by
      simp only [Bool.or_eq_true]
      rintro (h | h)
      · exact digits_take2_ne g hd 'x' (by decide) (of_decide_eq_true h)
      · exact digits_take2_ne g hd 'X' (by decide) (of_decide_eq_true h)),
    if_neg (by
      simp only [Bool.or_eq_true]
      rintro (h | h)
      · exact digits_take2_ne g hd 'o' (by decide) (of_decide_eq_true h)
      · exact digits_take2_ne g hd 'O' (by decide) (of_decide_eq_true h)),
    if_neg (by
      simp only [Bool.or_eq_true]
      rintro (h | h)
      · exact digits_take2_ne g hd 'b' (by decide) (of_decide_eq_true h)
      · exact digits_take2_ne g hd 'B' (by decide) (of_decide_eq_true h)),
    if_neg (digits_take1_ne g hd '+' (by decide)),
    if_neg (digits_take1_ne g hd '-' (by decide)), hfinal]
  rfl

/-- On inputs already in normalized shape with a two-or-more-component
integer core and a line-terminator-free label, `compareVersions` reduces
to `cmpCore` on the parsed core components, falling back to the
prerelease comparison `preCmpFlag` on ties. -/
theorem compareVersions_mkVer (c1 c2 : List (List Char))
    (p1 p2 : Option (List Char)) (h1 : GoodCore c1) (h2 : GoodCore c2)
    (hl1 : labelOk p1 = true) (hl2 : labelOk p2 = true) :
    compareVersions (mkVer c1 p1) (mkVer c2 p2) =
      if cmpCore (c1.map strToNumber) (c2.map strToNumber) ≠ 0
      then cmpCore (c1.map strToNumber) (c2.map strToNumber)
      else preCmpFlag (labelOf p1) (labelOf p2) := by
  obtain ⟨hlen1, hgood1⟩ := h1
  obtain ⟨hlen2, hgood2⟩ := h2
  have hc1ne : c1 ≠ [] := by intro he; rw [he] at hlen1; simp at hlen1
  have hc2ne : c2 ≠ [] := by intro he; rw [he] at hlen2; simp at hlen2
  have hnd1 : ∀ g ∈ c1, ∀ x ∈ g, x ≠ '.' := fun g hg x hx =>
    jsDigit_ne_dot x (List.all_eq_true.mp (hgood1 g hg).2 x hx)
  have hnd2 : ∀ g ∈ c2, ∀ x ∈ g, x ≠ '.' := fun g hg x hx =>
    jsDigit_ne_dot x (List.all_eq_true.mp (hgood2 g hg).2 x hx)
  rw [compareVersions,
    normalizeVersion_mkVer c1 p1 hlen1 hgood1 hl1,
    normalizeVersion_mkVer c2 p2 hlen2 hgood2 hl2,
    verOf_mkVer c1 p1 hgood1, verOf_mkVer c2 p2 hgood2,
    preOf_mkVer c1 p1 hgood1, preOf_mkVer c2 p2 hgood2,
    splitOn_joinSep '.' c1 hc1ne hnd1, splitOn_joinSep '.' c2 hc2ne hnd2,
    preCmpFlag]

/-- Every component of a `GoodCore` core parses to a non-NaN number. -/
theorem goodCore_allNN (c : List (List Char))
    (h : ∀ g ∈ c, g ≠ [] ∧ g.all jsDigit = true) :
    AllNN (c.map strToNumber) := by
  intro x hx
  obtain ⟨g, hg, rfl⟩ := List.mem_map.mp hx
  exact strToNumber_digits_nn g (h g hg).1 (List.all_eq_true.mp (h g hg).2)

/-- C6 (amended): compareVersions is transitive on versions whose core
has at least two dot-separated non-negative integer components and whose
optional prerelease label contains no line-terminator characters: if
compare(a,b)=1 and compare(b,c)=1 then compare(a,c)=1. -/
theorem C6_comparator_transitive (ca cb cc : List (List Char))
    (pa pb pc : Option (List Char))
    (ha : GoodCore ca) (hb : GoodCore cb) (hc : GoodCore cc)
    (hla : labelOk pa = true) (hlb : labelOk pb = true) (hlc : labelOk pc = true)
    (h1 : compareVersions (mkVer ca pa) (mkVer cb pb) = 1)
    (h2 : compareVersions (mkVer cb pb) (mkVer cc pc) = 1) :
    compareVersions (mkVer ca pa) (mkVer cc pc) = 1 := by
  have nnA : AllNN (ca.map strToNumber) := goodCore_allNN ca ha.2
  have nnB : AllNN (cb.map strToNumber) := goodCore_allNN cb hb.2
  have nnC : AllNN (cc.map strToNumber) := goodCore_allNN cc hc.2
  rw [compareVersions_mkVer ca cb pa pb ha hb hla hlb] at h1
  rw [compareVersions_mkVer cb cc pb pc hb hc hlb hlc] at h2
  rw [compareVersions_mkVer ca cc pa pc ha hc hla hlc]
  by_cases hX : cmpCore (ca.map strToNumber) (cb.map strToNumber) = 0
  · rw [if_neg (fun hne => hne hX)] at h1
    by_cases hY : cmpCore (cb.map strToNumber) (cc.map strToNumber) = 0
    · rw [if_neg (fun hne => hne hY)] at h2
      have hZ : cmpCore (ca.map strToNumber) (cc.map strToNumber) = 0 := by
        rw [cmpCore_zero_subst _ _ _ nnA nnB nnC hX]
        exact hY
      rw [if_neg (fun hne => hne hZ)]
      exact preCmpFlag_trans_one _ _ _ h1 h2
    · rw [if_pos hY] at h2
      have hZ : cmpCore (ca.map strToNumber) (cc.map strToNumber) = 1 := by
        rw [cmpCore_zero_subst _ _ _ nnA nnB nnC hX]
        exact h2
      rw [if_pos (fun h0 => absurd (hZ.symm.trans h0) (by decide))]
      exact hZ
  · rw [if_pos hX] at h1
    by_cases hY : cmpCore (cb.map strToNumber) (cc.map strToNumber) = 0
    · rw [if_neg (fun hne => hne hY)] at h2
      have hCB : cmpCore (cc.map strToNumber) (cb.map strToNumber) = 0 := by
        rw [cmpCore_antisymm _ _ nnB nnC, hY]
        decide
      have hZ : cmpCore (ca.map strToNumber) (cc.map strToNumber) = 1 := by
        rw [cmpCore_antisymm _ _ nnC nnA,
          cmpCore_zero_subst _ _ _ nnC nnB nnA hCB,
          cmpCore_antisymm _ _ nnA nnB, h1]
        decide
      rw [if_pos (fun h0 => absurd (hZ.symm.trans h0) (by decide))]
      exact hZ
    · rw [if_pos hY] at h2
      have hZ : cmpCore (ca.map strToNumber) (cc.map strToNumber) = 1 :=
        cmpCore_trans_one _ _ _ nnA nnB nnC h1 h2
      rw [if_pos (fun h0 => absurd (hZ.symm.trans h0) (by decide))]
      exact hZ

set_option maxRecDepth 20000 in
/-- C6: counterexample to the claim as stated.  All three strings are
normalized versions in the claim's sense (integer components plus an
optional hyphen-separated prerelease label), yet compare("5.3.2",
"1-5.2x.1") = 1 and compare("1-5.2x.1", "5.9.0") = 1 while
compare("5.3.2", "5.9.0") = -1: "1-5.2x.1" renormalizes to "5.2x.1",
whose middle component parses as NaN and compares unordered against
every number. -/
theorem C6_transitivity_counterexample :
    NormalizedShape "5.3.2".toList ∧ NormalizedShape "1-5.2x.1".toList ∧
    NormalizedShape "5.9.0".toList ∧
    compareVersions "5.3.2".toList "1-5.2x.1".toList = 1 ∧
    compareVersions "1-5.2x.1".toList "5.9.0".toList = 1 ∧
    compareVersions "5.3.2".toList "5.9.0".toList = -1 := by
  refine ⟨⟨[['5'], ['3'], ['2']], none, by decide, by decide, by decide,
      fun l hl => Option.noConfusion hl⟩,
    ⟨[['1']], some "5.2x.1".toList, by decide, by decide, by decide, ?_⟩,
    ⟨[['5'], ['9'], ['0']], none, by decide, by decide, by decide,
      fun l hl => Option.noConfusion hl⟩,
    by decide, by decide, by decide⟩
  intro l hl
  injection hl with h
  rw [← h]
  decide

set_option maxRecDepth 20000 in
theorem C6_comparator_transitive_witness :
    compareVersions (mkVer [['1'], ['2'], ['0']] none)
      (mkVer [['1'], ['0'], ['0']] none) = 1 :=
  C6_comparator_transitive [['1'], ['2'], ['0']] [['1'], ['1'], ['0']]
    [['1'], ['0'], ['0']] none none none
    ⟨by decide, by decide⟩ ⟨by decide, by decide⟩ ⟨by decide, by decide⟩
    rfl rfl rfl (by decide) (by decide)

end KVUA
